import Mathlib

/-!
gPXE scripts (`src/gpxe/src/image/script.c`)

A shallow embedding of `script_load` (the format probe) and `script_exec`
(the line executor) together with the properties stated about them.

Modelling conventions.

* A byte is a natural number (`'\n'` is 10, the terminating NUL is 0).
* `image->data` is a `userptr_t`: it is modelled as the content of memory at
  every offset from the start of the user buffer, also at offsets at or past
  `image->len`, because `copy_from_user` reads whatever offsets it is asked for.
* `size_t` and `off_t` are declared outside this file and the specification
  gives offsets and lengths no width; offsets and lengths are unbounded
  naturals and `eol` is an integer (it can be negative).
* `system` is the external command interpreter.  It is a parameter: a
  transformer of the state a command can reach, which is the registry-owned
  state of the image (registration, reference count) and the interpreter's own
  state.  The `int` it returns is the command's status.
* `script_exec` also produces a ghost trace of the registry operations and
  interpreter invocations it performs, in program order.
-/

namespace Script

/-! ## Data model -/

/-- Descriptor of an image format (`struct image_type`); only its name is kept. -/
structure image_type where
  name : String
deriving DecidableEq, Repr

/-- The script image type: `.name = "script"`. -/
def script_image_type : image_type := ⟨"script"⟩

/-- Registry-owned state of an image: membership of the list of registered
images and the reference count. -/
structure registry_state where
  registered : Bool
  refcnt : Int
deriving DecidableEq, Repr

/-- The fields of `struct image` this file uses. -/
structure image where
  /-- Memory content at each offset from the `userptr_t` `image->data`. -/
  data : Nat → Nat
  /-- Length of the raw file image. -/
  len : Nat
  /-- Image type, if known (`none` is the null pointer). -/
  type : Option image_type
  /-- Reference count and registration. -/
  reg : registry_state

/-- The command interpreter `int system ( const char *command )`: given the
scratch buffer and the state a command can reach, the status and the new
state. -/
abbrev interpreter (σ : Type) : Type :=
  List Nat → registry_state × σ → Int × (registry_state × σ)

/-- Ghost record of what `script_exec` does, in program order.  An interpreter
invocation records the offset of the line, the scratch buffer handed over, the
registry state of the image at the moment of the call, and the status returned. -/
inductive event where
  | image_get
  | unregister_image
  | system (offset : Nat) (cmdbuf : List Nat) (at_call : registry_state) (rc : Int)
  | register_image
  | image_put
deriving DecidableEq, Repr

/-! ## External helpers -/

/-- Modelled from the spec: `copy_from_user ( dest, src, src_off, len )` from
`gpxe/uaccess.h`, the bounded copy-out read `read(offset, length) -> bytes`:
the `len` bytes at offsets `src_off .. src_off + len - 1` of the user buffer. -/
def copy_from_user (src : Nat → Nat) (src_off len : Nat) : List Nat :=
  (List.range len).map fun i => src (src_off + i)

/-- Modelled from the spec: `memchr_user ( buffer, offset, c, len )` from
`gpxe/uaccess.h`, the offset-scoped search `find_byte`: the offset (from the
start of the buffer) of the first byte equal to `c` among the `len` bytes
starting at `offset`, or a negative value if there is none. -/
def memchr_user (buffer : Nat → Nat) (offset c len : Nat) : Int :=
  match (List.range len).find? fun i => buffer (offset + i) == c with
  | some i => ((offset + i : Nat) : Int)
  | none => -1

/-- Modelled from the spec: `image_get` acquires a reference (count + 1). -/
def image_get (img : image) : image :=
  { img with reg := { img.reg with refcnt := img.reg.refcnt + 1 } }

/-- Modelled from the spec: `image_put` releases a reference (count - 1). -/
def image_put (img : image) : image :=
  { img with reg := { img.reg with refcnt := img.reg.refcnt - 1 } }

/-- Modelled from the spec: `unregister_image` removes the image from the
registry and drops the registry's reference. -/
def unregister_image (img : image) : image :=
  { img with reg := { registered := false, refcnt := img.reg.refcnt - 1 } }

/-- Modelled from the spec: `register_image` adds the image to the registry,
which takes a reference of its own. -/
def register_image (img : image) : image :=
  { img with reg := { registered := true, refcnt := img.reg.refcnt + 1 } }

/-! ## `script_load` -/

/-- The signature `static const char magic[] = "#!gpxe\n"` without its
terminating NUL: `sizeof ( magic ) - 1` is 7 bytes. -/
def magic : List Nat := [35, 33, 103, 112, 120, 101, 10]

/-- Load script into memory: `script_load`.  `ENOEXEC` is the error number
from `errno.h`.  Returns the status and the image. -/
def script_load (ENOEXEC : Int) (img : image) : Int × image :=
  let test := copy_from_user img.data 0 magic.length
  if test ≠ magic then
    (-ENOEXEC, img)
  else
    (0, { img with type := some script_image_type })

/-- Offsets of the user buffer that `script_load` reads: those of its one
`copy_from_user ( test, image->data, 0, sizeof ( test ) )`. -/
def script_load_reads : List Nat :=
  (List.range magic.length).map fun i => 0 + i

/-! ## `script_exec` -/

/-- Result of the `while` loop of `script_exec`, at the label `done`. -/
structure loop_result (σ : Type) where
  rc : Int
  img : image
  st : σ
  trace : List event

/-- The `while ( offset < image->len )` loop of `script_exec`, from the given
`offset`, with the ghost trace so far.  `fuel` bounds the number of
iterations; `none` means the bound was reached. -/
def script_loop {σ : Type} (system : interpreter σ) :
    Nat → Nat → image → σ → List event → Option (loop_result σ)
  | 0, _, _, _, _ => none
  | fuel + 1, offset, img, st, tr =>
    if offset < img.len then
      -- Find length of next line, excluding any terminating '\n'
      let eol : Int := memchr_user img.data offset 10 (img.len - offset)
      let eol : Int := if eol < 0 then (img.len : Int) else eol
      let len : Nat := (eol - (offset : Int)).toNat
      -- Copy line, terminate with NUL, and execute command
      let cmdbuf : List Nat := copy_from_user img.data offset len ++ [0]
      let r := system cmdbuf (img.reg, st)
      let img' : image := { img with reg := r.2.1 }
      let tr' := tr ++ [event.system offset cmdbuf img.reg r.1]
      if r.1 ≠ 0 then
        some ⟨r.1, img', r.2.2, tr'⟩
      else
        -- Move to next line
        script_loop system fuel (offset + (len + 1)) img' r.2.2 tr'
    else
      some ⟨0, img, st, tr⟩

/-- Execute script: `script_exec`.  Every iteration of the loop advances
`offset` by at least one, so `image->len + 1` iterations are enough fuel:
`script_exec_eq` shows that the result is never `none`. -/
def script_exec {σ : Type} (system : interpreter σ) (img : image) (st : σ) :
    Option (loop_result σ) :=
  let img := image_get img
  let img := unregister_image img
  match script_loop system (img.len + 1) 0 img st [event.image_get, event.unregister_image] with
  | none => none
  | some r =>
    -- Re-register image and return
    let img := register_image r.img
    let img := image_put img
    some ⟨r.rc, img, r.st, r.trace ++ [event.register_image, event.image_put]⟩

/-! ## Vocabulary of the properties -/

/-- Bytes of an ASCII string literal. -/
def bytes (s : String) : List Nat := s.toList.map Char.toNat

/-- The buffer of an image: its `len` bytes from offset 0. -/
def buffer (img : image) : List Nat := copy_from_user img.data 0 img.len

/-- An image whose buffer is `bs`, with zero bytes in the memory after it, no
type, and the given registry state. -/
def image_of (bs : List Nat) (reg : registry_state) : image :=
  { data := fun i => bs.getD i 0, len := bs.length, type := none, reg := reg }

/-- Scratch buffers of the interpreter invocations of a trace, in order. -/
def calls : List event → List (List Nat)
  | [] => []
  | event.system _ cmdbuf _ _ :: tr => cmdbuf :: calls tr
  | _ :: tr => calls tr

/-- Statuses returned by the interpreter invocations of a trace, in order. -/
def statuses : List event → List Int
  | [] => []
  | event.system _ _ _ rc :: tr => rc :: statuses tr
  | _ :: tr => statuses tr

/-- Registry states of the image at the interpreter invocations of a trace. -/
def states_at_calls : List event → List registry_state
  | [] => []
  | event.system _ _ at_call _ :: tr => at_call :: states_at_calls tr
  | _ :: tr => states_at_calls tr

/-- The lines of a buffer as the specification words them: the buffer is split
on `'\n'`, and a final `'\n'` does not start an extra line (the piece after it
is dropped); the empty buffer has no line. -/
def lines_spec (bs : List Nat) : List (List Nat) :=
  let pieces := bs.splitOn 10
  if pieces.getLast? = some [] then pieces.dropLast else pieces

/-- The state in which the first command of `script_exec` runs: the registry
state of the image after `image_get` and `unregister_image`, and the
interpreter's state on entry. -/
def entry_state {σ : Type} (img : image) (st : σ) : registry_state × σ :=
  ((unregister_image (image_get img)).reg, st)

/-- An interpreter without state of its own that accepts every command. -/
def ok_interpreter : interpreter Unit := fun _ s => (0, s)

/-- An interpreter that counts the commands it is given and fails with status
5 on the command `badcmd`. -/
def counting_interpreter : interpreter Nat := fun cmdbuf s =>
  (if cmdbuf = bytes "badcmd" ++ [0] then 5 else 0, (s.1, s.2 + 1))

/-- A registered image holding a gPXE script of three lines. -/
def gpxe_example : image := image_of (bytes "#!gpxe\ncmd1\ncmd2\n") ⟨true, 1⟩

/-- A registered image holding the first example buffer of the specification. -/
def spec_example : image := image_of (bytes "#!script\ncmd1\ncmd2\n") ⟨true, 1⟩

/-- A registered image holding the failing example buffer of the specification. -/
def spec_failing_example : image :=
  image_of (bytes "#!script\ncmd1\nbadcmd\ncmd3\n") ⟨true, 1⟩

/-- A registered image of four bytes, `#!gp`; the memory after the buffer
happens to hold `xe\n`. -/
def short_image : image :=
  { data := fun i => (bytes "#!gpxe\n").getD i 0, len := 4, type := none, reg := ⟨true, 1⟩ }

/-- State of the interpreter after it was fed the lines `ls`, in order, each
as a NUL-terminated scratch buffer, starting from `s`. -/
def after_lines {σ : Type} (system : interpreter σ) (s : registry_state × σ)
    (ls : List (List Nat)) : registry_state × σ :=
  ls.foldl (fun s l => (system (l ++ [0]) s).2) s

/-- Status the interpreter returns on line `i` (counted from 0) of `ls` when
it is fed the lines of `ls` in order starting from `s`. -/
def status_on {σ : Type} (system : interpreter σ) (s : registry_state × σ)
    (ls : List (List Nat)) (i : Nat) : Int :=
  (system (ls.getD i [] ++ [0]) (after_lines system s (ls.take i))).1

/-- Reference semantics of the loop over an explicit list of lines: feed the
lines to the interpreter one by one, stop at the first non-zero status.
Returns the status, the state reached and the interpreter events. -/
def run_lines {σ : Type} (system : interpreter σ) :
    List (List Nat) → Nat → registry_state × σ → Int × (registry_state × σ) × List event
  | [], _, s => (0, s, [])
  | l :: ls, offset, s =>
    let r := system (l ++ [0]) s
    let e := event.system offset (l ++ [0]) s.1 r.1
    if r.1 ≠ 0 then (r.1, r.2, [e])
    else
      let x := run_lines system ls (offset + (l.length + 1)) r.2
      (x.1, x.2.1, e :: x.2.2)

/-! ## Vocabulary of the properties of one iteration -/

/-- The value of `eol` after the `if ( eol < 0 ) eol = image->len;` of the
iteration of the loop of `script_exec` that starts at `offset`. -/
def next_eol (data : Nat → Nat) (len offset : Nat) : Int :=
  let eol : Int := memchr_user data offset 10 (len - offset)
  if eol < 0 then (len : Int) else eol

/-- The value of `len = ( eol - offset )` in the iteration of the loop of
`script_exec` that starts at `offset`: the length of the line. -/
def next_len (data : Nat → Nat) (len offset : Nat) : Nat :=
  (next_eol data len offset - (offset : Int)).toNat

/-- Offsets of the user buffer that `memchr_user ( buffer, offset, c, len )`
may examine: the `len` offsets from `offset`. -/
def memchr_user_reads (offset len : Nat) : List Nat :=
  (List.range len).map fun i => offset + i

/-- Offsets of the user buffer that `copy_from_user ( dest, src, src_off, len )`
reads: the `len` offsets from `src_off`. -/
def copy_from_user_reads (src_off len : Nat) : List Nat :=
  (List.range len).map fun i => src_off + i

/-- Offsets of the lines of the interpreter invocations of a trace, in order. -/
def offsets : List event → List Nat
  | [] => []
  | event.system offset _ _ _ :: tr => offset :: offsets tr
  | _ :: tr => offsets tr

/-- The events `es` are those of consecutive iterations of the loop of
`script_exec` on the buffer `data`, `len`, the first starting at `offset`:
each is an interpreter invocation at the current offset, below `len`, with the
scratch buffer of that iteration, and the next starts `len + 1` further. -/
def iter_trace (data : Nat → Nat) (len : Nat) : Nat → List event → Prop
  | _, [] => True
  | offset, event.system o cmdbuf _ _ :: es =>
    o = offset ∧ offset < len ∧
      cmdbuf = copy_from_user data offset (next_len data len offset) ++ [0] ∧
      iter_trace data len (offset + (next_len data len offset + 1)) es
  | _, _ :: _ => False

/-- The value of `offset` after the iterations that produced the events `es`,
the first of which started at `offset`. -/
def end_offset (data : Nat → Nat) (len : Nat) : Nat → List event → Nat
  | offset, [] => offset
  | offset, _ :: es => end_offset data len (offset + (next_len data len offset + 1)) es

/-- The offset `p` starts a line: it is the start of the buffer or the byte
before it is `'\n'`. -/
def line_start (data : Nat → Nat) (p : Nat) : Prop :=
  p = 0 ∨ data (p - 1) = 10

/-- The string a C function reads from a `char *`: the bytes before the first
NUL. -/
def c_string (buf : List Nat) : List Nat :=
  buf.takeWhile fun b => b != 0

/-- What a command does when its handling is a run of `script_exec` on the
image `img` itself, in the registry state the command finds, the nested lines
being interpreted by `inner`: the status and the state that run leaves. -/
def nested_call {σ : Type} (inner : interpreter σ) (img : image)
    (s : registry_state × σ) : Int × (registry_state × σ) :=
  match script_exec inner { img with reg := s.1 } s.2 with
  | some r => (r.rc, (r.img.reg, r.st))
  | none => (-1, s)

/-- An interpreter that handles the command `cmd` by running `script_exec` on
`img` again, and every other command as `inner` does. -/
def reentrant_interpreter {σ : Type} (inner : interpreter σ) (img : image)
    (cmd : List Nat) : interpreter σ := fun cmdbuf s =>
  if cmdbuf = cmd then nested_call inner img s else inner cmdbuf s

/-- A registered image holding a script whose first line re-runs the script. -/
def reentrant_example : image := image_of (bytes "again\ncmd2\n") ⟨true, 1⟩

/-- The interpreter for `reentrant_example`: `again` runs the script once more,
with every command of the nested run accepted. -/
def reentrant_example_interpreter : interpreter Unit :=
  reentrant_interpreter ok_interpreter reentrant_example (bytes "again" ++ [0])

/-- A registered image whose second line holds a NUL byte: `ab`, NUL, `cd`. -/
def nul_example : image :=
  image_of (bytes "cmd1\nab" ++ [0] ++ bytes "cd\ncmd3\n") ⟨true, 1⟩

/-! ## Lemmas on the helpers -/

theorem copy_from_user_length (src : Nat → Nat) (o n : Nat) :
    (copy_from_user src o n).length = n := by
  simp [copy_from_user]

theorem copy_from_user_add (src : Nat → Nat) (o a b : Nat) :
    copy_from_user src o (a + b) = copy_from_user src o a ++ copy_from_user src (o + a) b := by
  simp [copy_from_user, List.range_add, List.map_append, List.map_map, Function.comp_def,
    Nat.add_assoc]

theorem mem_copy_from_user {src : Nat → Nat} {o n x : Nat} :
    x ∈ copy_from_user src o n ↔ ∃ j, j < n ∧ src (o + j) = x := by
  simp [copy_from_user]

theorem buffer_image_of (bs : List Nat) (reg : registry_state) :
    buffer (image_of bs reg) = bs := by
  apply List.ext_getElem
  · simp [buffer, image_of, copy_from_user]
  · intro i h1 h2
    simp [buffer, image_of, copy_from_user, List.getD_eq_getElem?_getD, List.getElem?_eq_getElem h2]

/-- What `memchr_user` returns: the offset of the first occurrence in the
window, or -1 when the window has none. -/
theorem memchr_user_spec (b : Nat → Nat) (o c n : Nat) :
    (∃ i, i < n ∧ memchr_user b o c n = ((o + i : Nat) : Int) ∧ b (o + i) = c ∧
        ∀ j, j < i → b (o + j) ≠ c) ∨
    (memchr_user b o c n = -1 ∧ ∀ j, j < n → b (o + j) ≠ c) := by
  unfold memchr_user
  cases h : (List.range n).find? (fun i => b (o + i) == c) with
  | some i =>
    left
    rw [List.find?_range_eq_some] at h
    obtain ⟨h1, h2, h3⟩ := h
    refine ⟨i, List.mem_range.mp h2, rfl, by simpa using h1, ?_⟩
    intro j hj
    simpa using h3 j hj
  | none =>
    right
    rw [List.find?_eq_none] at h
    refine ⟨rfl, ?_⟩
    intro j hj
    simpa using h j (List.mem_range.mpr hj)

theorem lines_spec_nil : lines_spec [] = [] := by decide

/-- A piece without `'\n'` followed by `'\n'` is the first line. -/
theorem lines_spec_line (l r : List Nat) (h : ∀ x ∈ l, x ≠ 10) :
    lines_spec (l ++ 10 :: r) = l :: lines_spec r := by
  have hs : (l ++ 10 :: r).splitOn 10 = l :: r.splitOn 10 := by
    unfold List.splitOn
    exact List.splitOnP_first _ l (by simpa using h) 10 (by simp) r
  have hne : r.splitOn 10 ≠ [] := List.splitOnP_ne_nil _ r
  unfold lines_spec
  simp only [hs]
  cases hr : r.splitOn 10 with
  | nil => exact absurd hr hne
  | cons p ps =>
    rw [List.getLast?_cons_cons, List.dropLast_cons₂]
    split <;> rfl

/-- A non-empty buffer without `'\n'` is one line. -/
theorem lines_spec_last (l : List Nat) (h : ∀ x ∈ l, x ≠ 10) (hne : l ≠ []) :
    lines_spec l = [l] := by
  have hs : l.splitOn 10 = [l] := by
    unfold List.splitOn
    exact List.splitOnP_eq_single _ l (by simpa using h)
  unfold lines_spec
  simp [hs, hne]

theorem copy_from_user_one (src : Nat → Nat) (o : Nat) :
    copy_from_user src o 1 = [src o] := by
  rfl

/-- One step of the reference semantics. -/
theorem run_lines_cons {σ : Type} (system : interpreter σ) (l : List Nat)
    (ls : List (List Nat)) (offset : Nat) (s : registry_state × σ) :
    run_lines system (l :: ls) offset s =
      if (system (l ++ [0]) s).1 ≠ 0 then
        ((system (l ++ [0]) s).1, (system (l ++ [0]) s).2,
          [event.system offset (l ++ [0]) s.1 (system (l ++ [0]) s).1])
      else
        ((run_lines system ls (offset + (l.length + 1)) (system (l ++ [0]) s).2).1,
          (run_lines system ls (offset + (l.length + 1)) (system (l ++ [0]) s).2).2.1,
          event.system offset (l ++ [0]) s.1 (system (l ++ [0]) s).1 ::
            (run_lines system ls (offset + (l.length + 1)) (system (l ++ [0]) s).2).2.2) := by
  rfl

/-- The loop of `script_exec` refines the reference semantics on the lines of
the rest of the buffer, whenever the fuel exceeds the number of bytes left. -/
theorem script_loop_eq {σ : Type} (system : interpreter σ) :
    ∀ (fuel offset : Nat) (img : image) (st : σ) (tr : List event),
      img.len - offset < fuel →
      script_loop system fuel offset img st tr =
        some ⟨(run_lines system (lines_spec (copy_from_user img.data offset (img.len - offset)))
                offset (img.reg, st)).1,
              { img with reg := (run_lines system
                (lines_spec (copy_from_user img.data offset (img.len - offset)))
                offset (img.reg, st)).2.1.1 },
              (run_lines system (lines_spec (copy_from_user img.data offset (img.len - offset)))
                offset (img.reg, st)).2.1.2,
              tr ++ (run_lines system
                (lines_spec (copy_from_user img.data offset (img.len - offset)))
                offset (img.reg, st)).2.2⟩ := by
  intro fuel
  induction fuel with
  | zero => intro offset img st tr h; omega
  | succ f ih =>
    intro offset img st tr hf
    rw [script_loop]
    by_cases hlt : offset < img.len
    · rw [if_pos hlt]
      rcases memchr_user_spec img.data offset 10 (img.len - offset) with
        ⟨i, hi, he, hb, hnb⟩ | ⟨he, hnb⟩
      · -- a newline at offset + i
        have hlen : ((if memchr_user img.data offset 10 (img.len - offset) < 0 then
            (img.len : Int) else memchr_user img.data offset 10 (img.len - offset))
            - (offset : Int)).toNat = i := by
          rw [he, if_neg (by omega)]
          omega
        have hsplit : copy_from_user img.data offset (img.len - offset) =
            copy_from_user img.data offset i ++
              10 :: copy_from_user img.data (offset + (i + 1)) (img.len - (offset + (i + 1))) := by
          have h1 : img.len - offset = i + (1 + (img.len - (offset + (i + 1)))) := by omega
          rw [h1, copy_from_user_add, copy_from_user_add, copy_from_user_one, hb]
          simp [Nat.add_assoc]
        have hline : ∀ x ∈ copy_from_user img.data offset i, x ≠ 10 := by
          intro x hx
          obtain ⟨j, hj, rfl⟩ := mem_copy_from_user.mp hx
          exact hnb j hj
        simp only [hlen]
        rw [hsplit, lines_spec_line _ _ hline, run_lines_cons, copy_from_user_length]
        by_cases hrc : (system (copy_from_user img.data offset i ++ [0]) (img.reg, st)).1 ≠ 0
        · rw [if_pos hrc, if_pos hrc]
        · rw [if_neg hrc, if_neg hrc]
          rw [ih _ _ _ _ (by show img.len - (offset + (i + 1)) < f; omega)]
          simp
      · -- no newline: the line extends to the end of the buffer
        have hlen : ((if memchr_user img.data offset 10 (img.len - offset) < 0 then
            (img.len : Int) else memchr_user img.data offset 10 (img.len - offset))
            - (offset : Int)).toNat = img.len - offset := by
          rw [he, if_pos (by omega)]
          omega
        have hline : ∀ x ∈ copy_from_user img.data offset (img.len - offset), x ≠ 10 := by
          intro x hx
          obtain ⟨j, hj, rfl⟩ := mem_copy_from_user.mp hx
          exact hnb j hj
        have hne : copy_from_user img.data offset (img.len - offset) ≠ [] := by
          intro h0
          have := congrArg List.length h0
          rw [copy_from_user_length] at this
          simp at this
          omega
        simp only [hlen]
        rw [lines_spec_last _ hline hne, run_lines_cons, copy_from_user_length]
        by_cases hrc : (system (copy_from_user img.data offset (img.len - offset) ++ [0])
            (img.reg, st)).1 ≠ 0
        · rw [if_pos hrc, if_pos hrc]
        · rw [if_neg hrc, if_neg hrc]
          rw [ih _ _ _ _ (by show img.len - (offset + (img.len - offset + 1)) < f; omega)]
          have h0 : img.len - (offset + (img.len - offset + 1)) = 0 := by omega
          simp [h0, copy_from_user, lines_spec_nil, run_lines]
    · rw [if_neg hlt]
      have h0 : img.len - offset = 0 := by omega
      simp [h0, copy_from_user, lines_spec_nil, run_lines]

/-- The registry state of the image when the loop of `script_exec` starts. -/
theorem entry_reg (img : image) :
    (unregister_image (image_get img)).reg = ⟨false, img.reg.refcnt + 1 - 1⟩ := by
  rfl

/-- `script_exec` always returns, and what it returns is the reference
semantics on the lines of the buffer, between the entry and exit registry
operations. -/
theorem script_exec_eq {σ : Type} (system : interpreter σ) (img : image) (st : σ) :
    script_exec system img st =
      some ⟨(run_lines system (lines_spec (buffer img)) 0
                ((unregister_image (image_get img)).reg, st)).1,
            image_put (register_image { img with reg := (run_lines system
                (lines_spec (buffer img)) 0
                ((unregister_image (image_get img)).reg, st)).2.1.1 }),
            (run_lines system (lines_spec (buffer img)) 0
                ((unregister_image (image_get img)).reg, st)).2.1.2,
            [event.image_get, event.unregister_image] ++
              (run_lines system (lines_spec (buffer img)) 0
                ((unregister_image (image_get img)).reg, st)).2.2 ++
              [event.register_image, event.image_put]⟩ := by
  unfold script_exec
  simp only []
  rw [script_loop_eq system _ 0 (unregister_image (image_get img)) st _
    (by show img.len - 0 < img.len + 1; omega)]
  rfl

theorem calls_append (a b : List event) : calls (a ++ b) = calls a ++ calls b := by
  induction a with
  | nil => rfl
  | cons e a ih => cases e <;> simp [calls, ih]

theorem statuses_append (a b : List event) :
    statuses (a ++ b) = statuses a ++ statuses b := by
  induction a with
  | nil => rfl
  | cons e a ih => cases e <;> simp [statuses, ih]

theorem states_at_calls_append (a b : List event) :
    states_at_calls (a ++ b) = states_at_calls a ++ states_at_calls b := by
  induction a with
  | nil => rfl
  | cons e a ih => cases e <;> simp [states_at_calls, ih]

theorem status_on_zero {σ : Type} (system : interpreter σ) (s : registry_state × σ)
    (l : List Nat) (ls : List (List Nat)) :
    status_on system s (l :: ls) 0 = (system (l ++ [0]) s).1 := by
  rfl

theorem status_on_succ {σ : Type} (system : interpreter σ) (s : registry_state × σ)
    (l : List Nat) (ls : List (List Nat)) (j : Nat) :
    status_on system s (l :: ls) (j + 1) = status_on system (system (l ++ [0]) s).2 ls j := by
  rfl

/-- If the interpreter returns 0 on every line, the reference run returns 0
after one invocation for each line, in order. -/
theorem run_lines_all_zero {σ : Type} (system : interpreter σ) :
    ∀ (ls : List (List Nat)) (o : Nat) (s : registry_state × σ),
      (∀ j, j < ls.length → status_on system s ls j = 0) →
      (run_lines system ls o s).1 = 0 ∧
        calls (run_lines system ls o s).2.2 = ls.map fun l => l ++ [0] := by
  intro ls
  induction ls with
  | nil => intro o s _; exact ⟨rfl, rfl⟩
  | cons l ls ih =>
    intro o s h
    have h0 : (system (l ++ [0]) s).1 = 0 := by
      have := h 0 (by simp)
      rwa [status_on_zero] at this
    have hrest : ∀ j, j < ls.length → status_on system (system (l ++ [0]) s).2 ls j = 0 := by
      intro j hj
      have := h (j + 1) (by simpa using hj)
      rwa [status_on_succ] at this
    rw [run_lines_cons, if_neg (by simp [h0])]
    obtain ⟨h1, h2⟩ := ih (o + (l.length + 1)) (system (l ++ [0]) s).2 hrest
    exact ⟨h1, by simp [calls, h2]⟩

/-- If line `i` is the first on which the interpreter returns a non-zero
status, the reference run returns that status after invoking the interpreter
on lines `0..i` and on no other. -/
theorem run_lines_first_failure {σ : Type} (system : interpreter σ) :
    ∀ (ls : List (List Nat)) (o : Nat) (s : registry_state × σ) (i : Nat),
      i < ls.length →
      (∀ j, j < i → status_on system s ls j = 0) →
      status_on system s ls i ≠ 0 →
      (run_lines system ls o s).1 = status_on system s ls i ∧
        calls (run_lines system ls o s).2.2 = (ls.take (i + 1)).map fun l => l ++ [0] := by
  intro ls
  induction ls with
  | nil => intro o s i hi; simp at hi
  | cons l ls ih =>
    intro o s i hi hz hr
    cases i with
    | zero =>
      rw [status_on_zero] at hr
      rw [run_lines_cons, if_pos hr, status_on_zero]
      exact ⟨rfl, by simp [calls]⟩
    | succ i =>
      have h0 : (system (l ++ [0]) s).1 = 0 := by
        have := hz 0 (by omega)
        rwa [status_on_zero] at this
      have hrest : ∀ j, j < i → status_on system (system (l ++ [0]) s).2 ls j = 0 := by
        intro j hj
        have := hz (j + 1) (by omega)
        rwa [status_on_succ] at this
      rw [status_on_succ] at hr ⊢
      rw [run_lines_cons, if_neg (by simp [h0])]
      obtain ⟨h1, h2⟩ := ih (o + (l.length + 1)) (system (l ++ [0]) s).2 i
        (by simpa using hi) hrest hr
      exact ⟨h1, by simp [calls, h2]⟩

/-- The reference run returns 0 exactly when every invocation returned 0. -/
theorem run_lines_rc_zero_iff {σ : Type} (system : interpreter σ) :
    ∀ (ls : List (List Nat)) (o : Nat) (s : registry_state × σ),
      (run_lines system ls o s).1 = 0 ↔
        ∀ x ∈ statuses (run_lines system ls o s).2.2, x = 0 := by
  intro ls
  induction ls with
  | nil => intro o s; simp [run_lines, statuses]
  | cons l ls ih =>
    intro o s
    rw [run_lines_cons]
    by_cases hrc : (system (l ++ [0]) s).1 ≠ 0
    · rw [if_pos hrc]
      simp [statuses]
    · rw [if_neg hrc]
      have h0 : (system (l ++ [0]) s).1 = 0 := by simpa using hrc
      simp [statuses, h0, ih]

/-- If no command changes the registry state of the image, the reference run
leaves it as it was. -/
theorem run_lines_reg {σ : Type} (system : interpreter σ)
    (hsys : ∀ c s, (system c s).2.1 = s.1) :
    ∀ (ls : List (List Nat)) (o : Nat) (s : registry_state × σ),
      (run_lines system ls o s).2.1.1 = s.1 := by
  intro ls
  induction ls with
  | nil => intro o s; rfl
  | cons l ls ih =>
    intro o s
    rw [run_lines_cons]
    by_cases hrc : (system (l ++ [0]) s).1 ≠ 0
    · rw [if_pos hrc]; exact hsys _ _
    · rw [if_neg hrc]
      show (run_lines system ls (o + (l.length + 1)) (system (l ++ [0]) s).2).2.1.1 = s.1
      rw [ih, hsys]

/-- If no command changes the registration of the image, every invocation of
the reference run sees the registration the run started with. -/
theorem run_lines_registered {σ : Type} (system : interpreter σ)
    (hsys : ∀ c s, (system c s).2.1.registered = s.1.registered) :
    ∀ (ls : List (List Nat)) (o : Nat) (s : registry_state × σ),
      ∀ rs ∈ states_at_calls (run_lines system ls o s).2.2,
        rs.registered = s.1.registered := by
  intro ls
  induction ls with
  | nil => intro o s rs h; simp [run_lines, states_at_calls] at h
  | cons l ls ih =>
    intro o s rs h
    rw [run_lines_cons] at h
    by_cases hrc : (system (l ++ [0]) s).1 ≠ 0
    · rw [if_pos hrc] at h
      simp [states_at_calls] at h
      rw [h]
    · rw [if_neg hrc] at h
      simp only [states_at_calls, List.mem_cons] at h
      rcases h with h | h
      · rw [h]
      · rw [ih _ _ rs h, hsys]

/-- The body of `script_load`, with the length of the signature spelled out. -/
theorem script_load_eq (ENOEXEC : Int) (img : image) :
    script_load ENOEXEC img =
      if copy_from_user img.data 0 7 ≠ magic then (-ENOEXEC, img)
      else (0, { img with type := some script_image_type }) := by
  rfl

theorem buffer_take_magic (img : image) (h7 : 7 ≤ img.len) :
    (buffer img).take 7 = copy_from_user img.data 0 7 := by
  have h : img.len = 7 + (img.len - 7) := by omega
  unfold buffer
  rw [h, copy_from_user_add]
  simp [copy_from_user_length]

/-! ## The format probe -/

/-- C1: for an image whose buffer holds at least 7 bytes, `script_load` returns
0 and sets the type to the script image type if and only if bytes 0..6 of the
buffer are the signature; otherwise it returns `-ENOEXEC` and leaves the type as
it was; and an image that agrees on the first seven bytes gets the same
outcome, whatever its later bytes and its length. -/
theorem script_load_probe (ENOEXEC : Int) (hE : ENOEXEC ≠ 0) (img : image)
    (h7 : 7 ≤ img.len) :
    (((script_load ENOEXEC img).1 = 0 ∧
        (script_load ENOEXEC img).2.type = some script_image_type) ↔
      (buffer img).take 7 = magic) ∧
    ((buffer img).take 7 ≠ magic →
      (script_load ENOEXEC img).1 = -ENOEXEC ∧
        (script_load ENOEXEC img).2.type = img.type) ∧
    (∀ img' : image, 7 ≤ img'.len → (buffer img').take 7 = (buffer img).take 7 →
      img'.type = img.type →
      (script_load ENOEXEC img').1 = (script_load ENOEXEC img).1 ∧
        (script_load ENOEXEC img').2.type = (script_load ENOEXEC img).2.type) := by
  have key : ∀ im : image, 7 ≤ im.len →
      script_load ENOEXEC im =
        if (buffer im).take 7 ≠ magic then (-ENOEXEC, im)
        else (0, { im with type := some script_image_type }) := by
    intro im him
    rw [buffer_take_magic im him]
    rfl
  refine ⟨?_, ?_, ?_⟩
  · rw [key img h7]
    by_cases hm : (buffer img).take 7 = magic
    · simp [hm]
    · simp [hm, hE]
  · intro hm
    rw [key img h7]
    simp [hm]
  · intro img' h7' hsame htype
    rw [key img h7, key img' h7', hsame]
    by_cases hm : (buffer img).take 7 = magic
    · simp [hm]
    · simp [hm, htype]

/-- Witness of C1 on a three-line gPXE script, with `ENOEXEC` = 8. -/
theorem script_load_probe_witness :
    ((8 : Int) ≠ 0 ∧ 7 ≤ gpxe_example.len) ∧
    ((((script_load 8 gpxe_example).1 = 0 ∧
        (script_load 8 gpxe_example).2.type = some script_image_type) ↔
      (buffer gpxe_example).take 7 = magic) ∧
    ((buffer gpxe_example).take 7 ≠ magic →
      (script_load 8 gpxe_example).1 = -8 ∧
        (script_load 8 gpxe_example).2.type = gpxe_example.type) ∧
    (∀ img' : image, 7 ≤ img'.len →
      (buffer img').take 7 = (buffer gpxe_example).take 7 →
      img'.type = gpxe_example.type →
      (script_load 8 img').1 = (script_load 8 gpxe_example).1 ∧
        (script_load 8 img').2.type = (script_load 8 gpxe_example).2.type)) :=
  ⟨⟨by decide, by decide⟩, script_load_probe 8 (by decide) gpxe_example (by decide)⟩

/-- C7: on the four-byte buffer `#!gp`, followed in memory by `xe\n`,
`script_load` reads offsets at and past `image->len`, returns 0 and tags the
image as a script; the same buffer followed by zero bytes is rejected, so the
outcome is decided by bytes that are not in the buffer. -/
theorem script_load_short_buffer :
    buffer short_image = bytes "#!gp" ∧
      short_image.len < magic.length ∧
      (∀ o ∈ [4, 5, 6], o ∈ script_load_reads ∧ short_image.len ≤ o) ∧
      (script_load 8 short_image).1 = 0 ∧
      (script_load 8 short_image).2.type = some script_image_type ∧
      buffer (image_of (bytes "#!gp") ⟨true, 1⟩) = buffer short_image ∧
      (image_of (bytes "#!gp") ⟨true, 1⟩).len = short_image.len ∧
      (script_load 8 (image_of (bytes "#!gp") ⟨true, 1⟩)).1 = -8 := by
  decide

/-- C8: `script_exec` returns, and the image it leaves has the data, the
length and the type it had on entry; `script_load` leaves the data, the length
and the registry state as they were, and changes the type only when the seven
bytes it read are the signature. -/
theorem script_frame {σ : Type} (system : interpreter σ) (img : image) (st : σ)
    (ENOEXEC : Int) :
    (∃ r, script_exec system img st = some r ∧
      r.img.data = img.data ∧ r.img.len = img.len ∧ r.img.type = img.type) ∧
    ((script_load ENOEXEC img).2.data = img.data ∧
      (script_load ENOEXEC img).2.len = img.len ∧
      (script_load ENOEXEC img).2.reg = img.reg ∧
      ((script_load ENOEXEC img).2.type ≠ img.type →
        copy_from_user img.data 0 7 = magic)) := by
  refine ⟨⟨_, script_exec_eq system img st, rfl, rfl, rfl⟩, ?_⟩
  rw [script_load_eq]
  by_cases hm : copy_from_user img.data 0 7 = magic
  · rw [if_neg (not_not.mpr hm)]
    exact ⟨rfl, rfl, rfl, fun _ => hm⟩
  · rw [if_pos hm]
    exact ⟨rfl, rfl, rfl, fun h => absurd rfl h⟩

/-- C9, as stated: on the buffer `#!script\ncmd1\ncmd2\n` the probe does not
succeed; it returns `-ENOEXEC` (here -8) and leaves the type unset. -/
theorem script_load_rejects_spec_example :
    (script_load 8 spec_example).1 = -8 ∧
      (script_load 8 spec_example).2.type = none ∧
      ¬ ((script_load 8 spec_example).1 = 0 ∧
          (script_load 8 spec_example).2.type = some script_image_type) := by
  decide

/-- C9, amended: on the buffer `#!gpxe\ncmd1\ncmd2\n`, which starts with the
signature of the code, `script_load` returns 0 and tags the image as a script. -/
theorem script_load_accepts_gpxe_example (ENOEXEC : Int) (reg : registry_state) :
    (script_load ENOEXEC (image_of (bytes "#!gpxe\ncmd1\ncmd2\n") reg)).1 = 0 ∧
      (script_load ENOEXEC (image_of (bytes "#!gpxe\ncmd1\ncmd2\n") reg)).2.type =
        some script_image_type := by
  have h : copy_from_user (image_of (bytes "#!gpxe\ncmd1\ncmd2\n") reg).data 0 7 = magic := by
    show copy_from_user (fun i => (bytes "#!gpxe\ncmd1\ncmd2\n").getD i 0) 0 7 = magic
    decide
  rw [script_load_eq, if_neg (not_not.mpr h)]
  exact ⟨rfl, rfl⟩

/-! ## The line executor -/

/-- C2: if the interpreter returns 0 on each line of the buffer as the run
feeds them to it, `script_exec` returns after invoking it exactly once per
line, in buffer order, the scratch buffer of the i-th invocation being the
bytes of the i-th line followed by the terminating NUL. -/
theorem script_exec_invokes_each_line {σ : Type} (system : interpreter σ) (img : image)
    (st : σ)
    (hzero : ∀ j, j < (lines_spec (buffer img)).length →
      status_on system (entry_state img st) (lines_spec (buffer img)) j = 0) :
    ∃ r, script_exec system img st = some r ∧
      calls r.trace = (lines_spec (buffer img)).map (fun l => l ++ [0]) ∧
      (calls r.trace).length = (lines_spec (buffer img)).length := by
  refine ⟨_, script_exec_eq system img st, ?_⟩
  have h := (run_lines_all_zero system (lines_spec (buffer img)) 0 (entry_state img st) hzero).2
  have hc : calls ([event.image_get, event.unregister_image] ++
      (run_lines system (lines_spec (buffer img)) 0
        ((unregister_image (image_get img)).reg, st)).2.2 ++
      [event.register_image, event.image_put]) =
      (lines_spec (buffer img)).map (fun l => l ++ [0]) := by
    rw [calls_append, calls_append]
    simpa [calls, entry_state] using h
  exact ⟨hc, by rw [hc, List.length_map]⟩

/-- Witness of C2: a script of three lines and an interpreter accepting all. -/
theorem script_exec_invokes_each_line_witness :
    (∀ j, j < (lines_spec (buffer gpxe_example)).length →
      status_on ok_interpreter (entry_state gpxe_example ())
        (lines_spec (buffer gpxe_example)) j = 0) ∧
    ∃ r, script_exec ok_interpreter gpxe_example () = some r ∧
      calls r.trace = (lines_spec (buffer gpxe_example)).map (fun l => l ++ [0]) ∧
      (calls r.trace).length = (lines_spec (buffer gpxe_example)).length :=
  ⟨by decide, script_exec_invokes_each_line ok_interpreter gpxe_example () (by decide)⟩

/-- C3: if line `i` (counted from 0) is the first line on which the
interpreter returns a non-zero status `r`, `script_exec` returns `r` after
invoking the interpreter on lines `0..i`, in order, and on no later line. -/
theorem script_exec_stops_at_first_failure {σ : Type} (system : interpreter σ)
    (img : image) (st : σ) (i : Nat) (r : Int)
    (hi : i < (lines_spec (buffer img)).length)
    (hzero : ∀ j, j < i →
      status_on system (entry_state img st) (lines_spec (buffer img)) j = 0)
    (hr : status_on system (entry_state img st) (lines_spec (buffer img)) i = r)
    (hne : r ≠ 0) :
    ∃ res, script_exec system img st = some res ∧
      res.rc = r ∧
      calls res.trace = ((lines_spec (buffer img)).take (i + 1)).map (fun l => l ++ [0]) ∧
      (calls res.trace).length = i + 1 := by
  refine ⟨_, script_exec_eq system img st, ?_⟩
  obtain ⟨h1, h2⟩ := run_lines_first_failure system (lines_spec (buffer img)) 0
    (entry_state img st) i hi hzero (by rw [hr]; exact hne)
  have hc : calls ([event.image_get, event.unregister_image] ++
      (run_lines system (lines_spec (buffer img)) 0
        ((unregister_image (image_get img)).reg, st)).2.2 ++
      [event.register_image, event.image_put]) =
      ((lines_spec (buffer img)).take (i + 1)).map (fun l => l ++ [0]) := by
    rw [calls_append, calls_append]
    simpa [calls, entry_state] using h2
  refine ⟨?_, hc, ?_⟩
  · rw [← hr, ← h1]
    rfl
  · rw [hc, List.length_map, List.length_take]
    omega

/-- Witness of C3: the failing example of the specification; the lines are
`#!script`, `cmd1`, `badcmd`, `cmd3`, and `badcmd` (line 2) returns 5. -/
theorem script_exec_stops_at_first_failure_witness :
    (2 < (lines_spec (buffer spec_failing_example)).length ∧
      (∀ j, j < 2 → status_on counting_interpreter (entry_state spec_failing_example 0)
        (lines_spec (buffer spec_failing_example)) j = 0) ∧
      status_on counting_interpreter (entry_state spec_failing_example 0)
        (lines_spec (buffer spec_failing_example)) 2 = 5 ∧
      (5 : Int) ≠ 0) ∧
    ∃ res, script_exec counting_interpreter spec_failing_example 0 = some res ∧
      res.rc = 5 ∧
      calls res.trace =
        ((lines_spec (buffer spec_failing_example)).take (2 + 1)).map (fun l => l ++ [0]) ∧
      (calls res.trace).length = 2 + 1 :=
  ⟨⟨by decide, by decide, by decide, by decide⟩,
    script_exec_stops_at_first_failure counting_interpreter spec_failing_example 0 2 5
      (by decide) (by decide) (by decide) (by decide)⟩

/-- C4: `script_exec` returns, and the status it returns is 0 if and only if
every interpreter invocation it made returned 0; on an image of length 0 it
makes no invocation and returns 0. -/
theorem script_exec_zero_iff {σ : Type} (system : interpreter σ) (img : image) (st : σ) :
    ∃ r, script_exec system img st = some r ∧
      (r.rc = 0 ↔ ∀ x ∈ statuses r.trace, x = 0) ∧
      (img.len = 0 → calls r.trace = [] ∧ r.rc = 0) := by
  refine ⟨_, script_exec_eq system img st, ?_, ?_⟩
  · show (run_lines system (lines_spec (buffer img)) 0
        ((unregister_image (image_get img)).reg, st)).1 = 0 ↔ _
    rw [run_lines_rc_zero_iff, statuses_append, statuses_append]
    simp [statuses]
  · intro h0
    have hb : buffer img = [] := by
      unfold buffer
      rw [h0]
      rfl
    show calls ([event.image_get, event.unregister_image] ++
        (run_lines system (lines_spec (buffer img)) 0
          ((unregister_image (image_get img)).reg, st)).2.2 ++
        [event.register_image, event.image_put]) = [] ∧
      (run_lines system (lines_spec (buffer img)) 0
        ((unregister_image (image_get img)).reg, st)).1 = 0
    rw [hb, lines_spec_nil]
    exact ⟨rfl, rfl⟩

/-- C5: if the image is registered with reference count `n` on entry and no
command changes its registration or its reference count, `script_exec` returns
with the image registered and its reference count equal to `n`, whatever status
it returns. -/
theorem script_exec_restores_registration {σ : Type} (system : interpreter σ)
    (img : image) (st : σ) (n : Int)
    (hentry : img.reg = ⟨true, n⟩)
    (hsys : ∀ c s, (system c s).2.1 = s.1) :
    ∃ r, script_exec system img st = some r ∧ r.img.reg = ⟨true, n⟩ := by
  refine ⟨_, script_exec_eq system img st, ?_⟩
  show (image_put (register_image { img with reg := (run_lines system
      (lines_spec (buffer img)) 0 ((unregister_image (image_get img)).reg, st)).2.1.1 })).reg
      = ⟨true, n⟩
  rw [run_lines_reg system hsys, entry_reg, hentry]
  simp [image_put, register_image]

/-- Witness of C5: the failing example of the specification, which takes the
command-failure path, run by an interpreter with a state of its own. -/
theorem script_exec_restores_registration_witness :
    (spec_failing_example.reg = ⟨true, 1⟩ ∧
      ∀ c s, (counting_interpreter c s).2.1 = s.1) ∧
    ∃ r, script_exec counting_interpreter spec_failing_example 0 = some r ∧
      r.img.reg = ⟨true, 1⟩ :=
  ⟨⟨rfl, fun _ _ => rfl⟩,
    script_exec_restores_registration counting_interpreter spec_failing_example 0 1 rfl
      (fun _ _ => rfl)⟩

/-- C6: if no command changes the registration of the image, the image is
unregistered at every interpreter invocation `script_exec` makes. -/
theorem script_exec_runs_unregistered {σ : Type} (system : interpreter σ) (img : image)
    (st : σ)
    (hsys : ∀ c s, (system c s).2.1.registered = s.1.registered) :
    ∃ r, script_exec system img st = some r ∧
      ∀ rs ∈ states_at_calls r.trace, rs.registered = false := by
  refine ⟨_, script_exec_eq system img st, ?_⟩
  intro rs hrs
  have hrs' : rs ∈ states_at_calls (run_lines system (lines_spec (buffer img)) 0
      ((unregister_image (image_get img)).reg, st)).2.2 := by
    have h := hrs
    simp only [states_at_calls_append] at h
    simpa [states_at_calls] using h
  exact run_lines_registered system hsys _ _ _ rs hrs'

/-- Witness of C6 on a gPXE script of three lines. -/
theorem script_exec_runs_unregistered_witness :
    (∀ c s, (counting_interpreter c s).2.1.registered = s.1.registered) ∧
    ∃ r, script_exec counting_interpreter gpxe_example 0 = some r ∧
      ∀ rs ∈ states_at_calls r.trace, rs.registered = false :=
  ⟨fun _ _ => rfl, script_exec_runs_unregistered counting_interpreter gpxe_example 0
    (fun _ _ => rfl)⟩

/-- C10, as stated: on the buffer `#!script\ncmd1\ncmd2\n` with an interpreter
that returns 0, the invocations are not `cmd1` then `cmd2`: there are three,
and the first is the line `#!script`. -/
theorem script_exec_spec_example_calls :
    (script_exec ok_interpreter spec_example ()).map (fun r => calls r.trace) ≠
        some [bytes "cmd1" ++ [0], bytes "cmd2" ++ [0]] ∧
      (script_exec ok_interpreter spec_example ()).map (fun r => calls r.trace) =
        some [bytes "#!script" ++ [0], bytes "cmd1" ++ [0], bytes "cmd2" ++ [0]] := by
  decide

/-- C10, amended: on the buffer `#!script\ncmd1\ncmd2\n` with an interpreter
that returns 0, the invocations are, in order, `#!script`, `cmd1`, `cmd2`, and
`script_exec` returns 0. -/
theorem script_exec_spec_example {σ : Type} (system : interpreter σ) (st : σ)
    (reg : registry_state) (hsys : ∀ c s, (system c s).1 = 0) :
    ∃ r, script_exec system (image_of (bytes "#!script\ncmd1\ncmd2\n") reg) st = some r ∧
      r.rc = 0 ∧
      calls r.trace = [bytes "#!script" ++ [0], bytes "cmd1" ++ [0], bytes "cmd2" ++ [0]] := by
  refine ⟨_, script_exec_eq system _ st, ?_⟩
  have hl : lines_spec (bytes "#!script\ncmd1\ncmd2\n") =
      [bytes "#!script", bytes "cmd1", bytes "cmd2"] := by decide
  obtain ⟨h1, h2⟩ := run_lines_all_zero system
    (lines_spec (buffer (image_of (bytes "#!script\ncmd1\ncmd2\n") reg))) 0
    ((unregister_image (image_get (image_of (bytes "#!script\ncmd1\ncmd2\n") reg))).reg, st)
    (fun j _ => hsys _ _)
  refine ⟨h1, ?_⟩
  show calls ([event.image_get, event.unregister_image] ++ _ ++
    [event.register_image, event.image_put]) = _
  rw [calls_append, calls_append, h2, buffer_image_of, hl]
  rfl

/-- Witness of C10, amended, with the interpreter that accepts every command. -/
theorem script_exec_spec_example_witness :
    (∀ c s, (ok_interpreter c s).1 = 0) ∧
    ∃ r, script_exec ok_interpreter (image_of (bytes "#!script\ncmd1\ncmd2\n") ⟨true, 1⟩) ()
        = some r ∧
      r.rc = 0 ∧
      calls r.trace = [bytes "#!script" ++ [0], bytes "cmd1" ++ [0], bytes "cmd2" ++ [0]] :=
  ⟨fun _ _ => rfl, script_exec_spec_example ok_interpreter () ⟨true, 1⟩ (fun _ _ => rfl)⟩

/-! ## Lemmas on the iterations of the loop -/

/-- What one iteration computes: `eol` is `offset + len`, the line lies in the
buffer and holds no `'\n'`, and it ends at a `'\n'` that `memchr_user` found
or, when it found none, at the end of the buffer. -/
theorem next_len_spec (d : Nat → Nat) (n o : Nat) (h : o < n) :
    next_eol d n o = ((o + next_len d n o : Nat) : Int) ∧
      o + next_len d n o ≤ n ∧
      (∀ j, j < next_len d n o → d (o + j) ≠ 10) ∧
      ((0 ≤ memchr_user d o 10 (n - o) ∧ o + next_len d n o < n ∧
          d (o + next_len d n o) = 10) ∨
        (memchr_user d o 10 (n - o) < 0 ∧ o + next_len d n o = n)) := by
  rcases memchr_user_spec d o 10 (n - o) with ⟨i, hi, he, hb, hnb⟩ | ⟨he, hnb⟩
  · have heol : next_eol d n o = ((o + i : Nat) : Int) := by
      unfold next_eol
      simp only [he]
      rw [if_neg (by omega)]
    have hlen : next_len d n o = i := by
      unfold next_len
      rw [heol]
      omega
    rw [hlen]
    refine ⟨heol, by omega, hnb, Or.inl ⟨by rw [he]; omega, by omega, hb⟩⟩
  · have heol : next_eol d n o = (n : Int) := by
      unfold next_eol
      simp only [he]
      rw [if_pos (by omega)]
    have hlen : next_len d n o = n - o := by
      unfold next_len
      rw [heol]
      omega
    rw [hlen]
    refine ⟨by rw [heol]; congr 1; omega, by omega, hnb, Or.inr ⟨by rw [he]; omega, by omega⟩⟩

/-- One iteration of the loop, with the length of the line named. -/
theorem script_loop_succ {σ : Type} (system : interpreter σ) (fuel offset : Nat)
    (img : image) (st : σ) (tr : List event) :
    script_loop system (fuel + 1) offset img st tr =
      if offset < img.len then
        if (system (copy_from_user img.data offset (next_len img.data img.len offset) ++ [0])
            (img.reg, st)).1 ≠ 0 then
          some ⟨(system (copy_from_user img.data offset
                  (next_len img.data img.len offset) ++ [0]) (img.reg, st)).1,
                { img with reg := (system (copy_from_user img.data offset
                  (next_len img.data img.len offset) ++ [0]) (img.reg, st)).2.1 },
                (system (copy_from_user img.data offset
                  (next_len img.data img.len offset) ++ [0]) (img.reg, st)).2.2,
                tr ++ [event.system offset
                  (copy_from_user img.data offset (next_len img.data img.len offset) ++ [0])
                  img.reg
                  (system (copy_from_user img.data offset
                    (next_len img.data img.len offset) ++ [0]) (img.reg, st)).1]⟩
        else
          script_loop system fuel (offset + (next_len img.data img.len offset + 1))
            { img with reg := (system (copy_from_user img.data offset
                  (next_len img.data img.len offset) ++ [0]) (img.reg, st)).2.1 }
            (system (copy_from_user img.data offset
                  (next_len img.data img.len offset) ++ [0]) (img.reg, st)).2.2
            (tr ++ [event.system offset
                  (copy_from_user img.data offset (next_len img.data img.len offset) ++ [0])
                  img.reg
                  (system (copy_from_user img.data offset
                    (next_len img.data img.len offset) ++ [0]) (img.reg, st)).1])
      else
        some ⟨0, img, st, tr⟩ := by
  rfl

theorem iter_trace_system_cons (d : Nat → Nat) (n o : Nat) (a : registry_state) (rc : Int)
    (es : List event) (h : o < n)
    (hes : iter_trace d n (o + (next_len d n o + 1)) es) :
    iter_trace d n o
      (event.system o (copy_from_user d o (next_len d n o) ++ [0]) a rc :: es) :=
  ⟨rfl, h, rfl, hes⟩

/-- The events the loop adds to the trace are those of consecutive iterations
from `offset`; when the loop ends with status 0, the iterations have taken
`offset` to the end of the buffer or past it. -/
theorem script_loop_trace {σ : Type} (system : interpreter σ) :
    ∀ (fuel offset : Nat) (img : image) (st : σ) (tr : List event) (r : loop_result σ),
      script_loop system fuel offset img st tr = some r →
      ∃ new, r.trace = tr ++ new ∧ iter_trace img.data img.len offset new ∧
        (r.rc = 0 → img.len ≤ end_offset img.data img.len offset new) := by
  intro fuel
  induction fuel with
  | zero => intro offset img st tr r h; simp [script_loop] at h
  | succ f ih =>
    intro offset img st tr r h
    rw [script_loop_succ] at h
    by_cases hlt : offset < img.len
    · rw [if_pos hlt] at h
      by_cases hrc : (system (copy_from_user img.data offset
          (next_len img.data img.len offset) ++ [0]) (img.reg, st)).1 ≠ 0
      · rw [if_pos hrc] at h
        cases h
        exact ⟨_, rfl, iter_trace_system_cons _ _ _ _ _ [] hlt trivial,
          fun h0 => absurd h0 hrc⟩
      · rw [if_neg hrc] at h
        obtain ⟨new, h1, h2, h3⟩ := ih _ _ _ _ _ h
        rw [List.append_assoc, List.singleton_append] at h1
        exact ⟨_, h1, iter_trace_system_cons _ _ _ _ _ new hlt h2, h3⟩
    · rw [if_neg hlt] at h
      cases h
      exact ⟨[], by simp, trivial, fun _ => by show img.len ≤ offset; omega⟩

/-- The trace of `script_exec`: `image_get`, `unregister_image`, the events of
consecutive iterations from offset 0, `register_image`, `image_put`. -/
theorem script_exec_trace {σ : Type} (system : interpreter σ) (img : image) (st : σ) :
    ∃ r new, script_exec system img st = some r ∧
      r.trace = [event.image_get, event.unregister_image] ++ new ++
        [event.register_image, event.image_put] ∧
      iter_trace img.data img.len 0 new ∧
      (r.rc = 0 → img.len ≤ end_offset img.data img.len 0 new) := by
  have hsome := script_loop_eq system (img.len + 1) 0 (unregister_image (image_get img)) st
    [event.image_get, event.unregister_image] (by show img.len - 0 < img.len + 1; omega)
  obtain ⟨new, h1, h2, h3⟩ := script_loop_trace system _ _ _ _ _ _ hsome
  have hX := List.append_cancel_left h1
  refine ⟨_, new, script_exec_eq system img st, ?_, h2, h3⟩
  rw [← hX]
  rfl

/-- The first of the events of consecutive iterations is an invocation at the
starting offset with the scratch buffer of that iteration. -/
theorem iter_trace_cons_inv {d : Nat → Nat} {n o : Nat} {e : event} {es : List event}
    (h : iter_trace d n o (e :: es)) :
    (∃ a rc, e = event.system o (copy_from_user d o (next_len d n o) ++ [0]) a rc) ∧
      o < n ∧ iter_trace d n (o + (next_len d n o + 1)) es := by
  cases e with
  | system o' c a rc =>
    obtain ⟨h1, h2, h3, h4⟩ := h
    subst h1 h3
    exact ⟨⟨a, rc, rfl⟩, h2, h4⟩
  | image_get => exact absurd h id
  | unregister_image => exact absurd h id
  | register_image => exact absurd h id
  | image_put => exact absurd h id

/-- Every invocation among the events of consecutive iterations starts at an
offset inside the buffer, not before the first, and hands over the scratch
buffer of the iteration at that offset. -/
theorem iter_trace_mem {d : Nat → Nat} {n : Nat} :
    ∀ {es : List event} {o : Nat}, iter_trace d n o es →
      ∀ o' c a rc, event.system o' c a rc ∈ es →
        o ≤ o' ∧ o' < n ∧ c = copy_from_user d o' (next_len d n o') ++ [0] := by
  intro es
  induction es with
  | nil => intro o _ o' c a rc hmem; simp at hmem
  | cons e es ih =>
    intro o h o' c a rc hmem
    obtain ⟨⟨a0, rc0, he⟩, hlt, hes⟩ := iter_trace_cons_inv h
    rcases List.mem_cons.mp hmem with heq | hin
    · rw [he] at heq
      cases heq
      exact ⟨Nat.le_refl _, hlt, rfl⟩
    · obtain ⟨h1, h2, h3⟩ := ih hes o' c a rc hin
      exact ⟨by omega, h2, h3⟩

/-- The events of consecutive iterations are interpreter invocations. -/
theorem iter_trace_all_system {d : Nat → Nat} {n : Nat} :
    ∀ {es : List event} {o : Nat}, iter_trace d n o es →
      ∀ e ∈ es, ∃ o' c a rc, e = event.system o' c a rc := by
  intro es
  induction es with
  | nil => intro o _ e hmem; simp at hmem
  | cons e0 es ih =>
    intro o h e hmem
    obtain ⟨⟨a0, rc0, he⟩, _, hes⟩ := iter_trace_cons_inv h
    rcases List.mem_cons.mp hmem with heq | hin
    · exact ⟨_, _, a0, rc0, heq.trans he⟩
    · exact ih hes e hin

/-- There are at most as many consecutive iterations as bytes left, and each
is one invocation. -/
theorem iter_trace_length {d : Nat → Nat} {n : Nat} :
    ∀ {es : List event} {o : Nat}, iter_trace d n o es →
      es.length ≤ n - o ∧ (calls es).length = es.length ∧
        (offsets es).length = es.length := by
  intro es
  induction es with
  | nil => intro o _; exact ⟨Nat.zero_le _, rfl, rfl⟩
  | cons e es ih =>
    intro o h
    obtain ⟨⟨a0, rc0, he⟩, hlt, hes⟩ := iter_trace_cons_inv h
    obtain ⟨h1, h2, h3⟩ := ih hes
    subst he
    refine ⟨?_, by simp [calls, h2], by simp [offsets, h3]⟩
    simp only [List.length_cons]
    omega

/-- The offsets of consecutive iterations: each is the one before plus the
length of its line plus one. -/
theorem iter_trace_chain {d : Nat → Nat} {n : Nat} :
    ∀ {es : List event} {o : Nat}, iter_trace d n o es →
      (∀ o' ∈ (offsets es).head?, o' = o) ∧
      List.Chain' (fun a b => b = a + (next_len d n a + 1)) (offsets es) := by
  intro es
  induction es with
  | nil => intro o _; exact ⟨by simp [offsets], by simp [offsets]⟩
  | cons e es ih =>
    intro o h
    obtain ⟨⟨a0, rc0, he⟩, hlt, hes⟩ := iter_trace_cons_inv h
    obtain ⟨h1, h2⟩ := ih hes
    subst he
    refine ⟨by simp [offsets], ?_⟩
    show List.Chain' _ (o :: offsets es)
    rw [List.chain'_cons']
    exact ⟨h1, h2⟩

theorem mem_trace_iff (new : List event) (o : Nat) (c : List Nat) (a : registry_state)
    (rc : Int) :
    event.system o c a rc ∈ [event.image_get, event.unregister_image] ++ new ++
        [event.register_image, event.image_put] ↔
      event.system o c a rc ∈ new := by
  simp

theorem calls_trace (new : List event) :
    calls ([event.image_get, event.unregister_image] ++ new ++
        [event.register_image, event.image_put]) = calls new := by
  rw [calls_append, calls_append]
  simp [calls]

theorem offsets_append (a b : List event) :
    offsets (a ++ b) = offsets a ++ offsets b := by
  induction a with
  | nil => rfl
  | cons e a ih => cases e <;> simp [offsets, ih]

theorem offsets_trace (new : List event) :
    offsets ([event.image_get, event.unregister_image] ++ new ++
        [event.register_image, event.image_put]) = offsets new := by
  rw [offsets_append, offsets_append]
  simp [offsets]

theorem mem_offsets {es : List event} {o : Nat} (h : o ∈ offsets es) :
    ∃ c a rc, event.system o c a rc ∈ es := by
  induction es with
  | nil => simp [offsets] at h
  | cons e es ih =>
    cases e with
    | system o' c a rc =>
      simp only [offsets, List.mem_cons] at h
      rcases h with h | h
      · subst h
        exact ⟨c, a, rc, List.mem_cons_self _ _⟩
      · obtain ⟨c', a', rc', hm⟩ := ih h
        exact ⟨c', a', rc', List.mem_cons_of_mem _ hm⟩
    | image_get =>
      obtain ⟨c', a', rc', hm⟩ := ih h
      exact ⟨c', a', rc', List.mem_cons_of_mem _ hm⟩
    | unregister_image =>
      obtain ⟨c', a', rc', hm⟩ := ih h
      exact ⟨c', a', rc', List.mem_cons_of_mem _ hm⟩
    | register_image =>
      obtain ⟨c', a', rc', hm⟩ := ih h
      exact ⟨c', a', rc', List.mem_cons_of_mem _ hm⟩
    | image_put =>
      obtain ⟨c', a', rc', hm⟩ := ih h
      exact ⟨c', a', rc', List.mem_cons_of_mem _ hm⟩

theorem find_congr {p q : Nat → Bool} :
    ∀ (l : List Nat), (∀ i ∈ l, p i = q i) → l.find? p = l.find? q := by
  intro l
  induction l with
  | nil => intro _; rfl
  | cons x xs ih =>
    intro h
    rw [List.find?_cons, List.find?_cons, h x (List.mem_cons_self _ _),
      ih (fun i hi => h i (List.mem_cons_of_mem _ hi))]

/-- The offsets listed by `memchr_user_reads` are all that decides the result
of `memchr_user`. -/
theorem memchr_user_reads_sound (d d' : Nat → Nat) (o c n : Nat)
    (h : ∀ p ∈ memchr_user_reads o n, d p = d' p) :
    memchr_user d o c n = memchr_user d' o c n := by
  have hfind : (List.range n).find? (fun i => d (o + i) == c) =
      (List.range n).find? (fun i => d' (o + i) == c) := by
    apply find_congr
    intro i hi
    rw [h (o + i) (List.mem_map.mpr ⟨i, hi, rfl⟩)]
  unfold memchr_user
  rw [hfind]

/-- The offsets listed by `copy_from_user_reads` are all that decides the
result of `copy_from_user`. -/
theorem copy_from_user_reads_sound (d d' : Nat → Nat) (o n : Nat)
    (h : ∀ p ∈ copy_from_user_reads o n, d p = d' p) :
    copy_from_user d o n = copy_from_user d' o n := by
  unfold copy_from_user
  apply List.map_congr_left
  intro i hi
  exact h (o + i) (List.mem_map.mpr ⟨i, hi, rfl⟩)

theorem mem_reads {o n p : Nat} (h : p ∈ (List.range n).map fun i => o + i) :
    o ≤ p ∧ p < o + n := by
  obtain ⟨i, hi, rfl⟩ := List.mem_map.mp h
  have := List.mem_range.mp hi
  omega

/-- The bytes copied from inside the buffer are a slice of the buffer. -/
theorem copy_from_user_slice (d : Nat → Nat) (n o l : Nat) (h : o + l ≤ n) :
    copy_from_user d o l = ((copy_from_user d 0 n).drop o).take l := by
  have hn : n = o + (l + (n - o - l)) := by omega
  rw [hn, copy_from_user_add, copy_from_user_add,
    List.drop_left' (copy_from_user_length d 0 o),
    List.take_left' (by rw [copy_from_user_length]), Nat.zero_add]

/-! ## The iterations of the line executor -/

/-- C11: the trace of every run of `script_exec` is `image_get`,
`unregister_image`, then interpreter invocations only, then `register_image`,
`image_put`; each of the four registry operations occurs exactly once. -/
theorem script_exec_registry_order {σ : Type} (system : interpreter σ) (img : image)
    (st : σ) :
    ∃ r mid, script_exec system img st = some r ∧
      r.trace = [event.image_get, event.unregister_image] ++ mid ++
        [event.register_image, event.image_put] ∧
      (∀ e ∈ mid, ∃ o c a rc, e = event.system o c a rc) ∧
      r.trace.count event.image_get = 1 ∧
      r.trace.count event.unregister_image = 1 ∧
      r.trace.count event.register_image = 1 ∧
      r.trace.count event.image_put = 1 := by
  obtain ⟨r, mid, hr, htr, hit, _⟩ := script_exec_trace system img st
  have hsys := iter_trace_all_system hit
  have hcount : ∀ e : event, (∀ o c a rc, e ≠ event.system o c a rc) → mid.count e = 0 := by
    intro e he
    rw [List.count_eq_zero]
    intro hmem
    obtain ⟨o, c, a, rc, heq⟩ := hsys e hmem
    exact he o c a rc heq
  refine ⟨r, mid, hr, htr, hsys, ?_, ?_, ?_, ?_⟩ <;>
    · rw [htr, List.count_append, List.count_append, hcount _ (by intro o c a rc h; cases h)]
      decide

/-- C12: in every iteration of the loop of `script_exec`, at its offset `o`:
`image->len - o` is positive, the offsets the search may examine lie in
`[o, image->len)`, `o <= eol <= image->len`, the scratch buffer is the copy of
`len` bytes from `o`, the copy reads only `[o, o + len)`, and
`o + len <= image->len`. -/
theorem script_exec_iteration_bounds {σ : Type} (system : interpreter σ) (img : image)
    (st : σ) :
    ∃ r, script_exec system img st = some r ∧
      ∀ o c a rc, event.system o c a rc ∈ r.trace →
        (0 : Int) < (img.len : Int) - (o : Int) ∧
        (∀ p ∈ memchr_user_reads o (img.len - o), o ≤ p ∧ p < img.len) ∧
        (o : Int) ≤ next_eol img.data img.len o ∧
        next_eol img.data img.len o ≤ (img.len : Int) ∧
        c = copy_from_user img.data o (next_len img.data img.len o) ++ [0] ∧
        (∀ p ∈ copy_from_user_reads o (next_len img.data img.len o),
          o ≤ p ∧ p < o + next_len img.data img.len o) ∧
        o + next_len img.data img.len o ≤ img.len := by
  obtain ⟨r, new, hr, htr, hit, _⟩ := script_exec_trace system img st
  refine ⟨r, hr, ?_⟩
  intro o c a rc hmem
  rw [htr, mem_trace_iff] at hmem
  obtain ⟨_, hlt, hc⟩ := iter_trace_mem hit o c a rc hmem
  obtain ⟨heol, hle, _, _⟩ := next_len_spec img.data img.len o hlt
  refine ⟨by omega, ?_, by rw [heol]; omega, by rw [heol]; omega, hc, ?_, hle⟩
  · intro p hp
    have := mem_reads hp
    omega
  · intro p hp
    exact mem_reads hp

/-- C13: the loop of `script_exec` returns with any fuel above `image->len`;
from one iteration to the next `offset` grows by `len + 1`, which is at least
1; an iteration that finds no newline leaves `offset = image->len + 1`; and the
interpreter is invoked at most `image->len` times. -/
theorem script_exec_terminates {σ : Type} (system : interpreter σ) (img : image) (st : σ) :
    (∀ fuel tr, img.len < fuel →
      (script_loop system fuel 0 (unregister_image (image_get img)) st tr).isSome) ∧
    ∃ r, script_exec system img st = some r ∧
      List.Chain' (fun a b => b = a + (next_len img.data img.len a + 1) ∧ a < b)
        (offsets r.trace) ∧
      (∀ o ∈ offsets r.trace, o < img.len ∧
        (memchr_user img.data o 10 (img.len - o) < 0 →
          o + (next_len img.data img.len o + 1) = img.len + 1)) ∧
      (calls r.trace).length ≤ img.len := by
  constructor
  · intro fuel tr hf
    rw [script_loop_eq system fuel 0 (unregister_image (image_get img)) st tr
      (by show img.len - 0 < fuel; omega)]
    rfl
  · obtain ⟨r, new, hr, htr, hit, _⟩ := script_exec_trace system img st
    refine ⟨r, hr, ?_, ?_, ?_⟩
    · rw [htr, offsets_trace]
      exact (iter_trace_chain hit).2.imp (fun a b h => ⟨h, by omega⟩)
    · intro o ho
      rw [htr, offsets_trace] at ho
      obtain ⟨c, a, rc, hmem⟩ := mem_offsets ho
      obtain ⟨_, hlt, _⟩ := iter_trace_mem hit o c a rc hmem
      refine ⟨hlt, ?_⟩
      intro hneg
      obtain ⟨_, _, _, hcase⟩ := next_len_spec img.data img.len o hlt
      rcases hcase with ⟨h0, _, _⟩ | ⟨_, hend⟩
      · omega
      · omega
    · rw [htr, calls_trace, (iter_trace_length hit).2.1]
      have := (iter_trace_length hit).1
      omega

/-- C15: for every line `script_exec` hands to the interpreter, with `len` the
length computed for it: the scratch buffer has `len + 1` bytes, its first
`len` bytes are the bytes `[offset, offset + len)` of the buffer, its last byte
is 0, and `len` is the length of the line without the newline (no `'\n'`
among the bytes, and the line ends at the end of the buffer or at a `'\n'`). -/
theorem script_exec_scratch_buffer {σ : Type} (system : interpreter σ) (img : image)
    (st : σ) :
    ∃ r, script_exec system img st = some r ∧
      ∀ o c a rc, event.system o c a rc ∈ r.trace →
        c.length = next_len img.data img.len o + 1 ∧
        c.take (next_len img.data img.len o) =
          ((buffer img).drop o).take (next_len img.data img.len o) ∧
        c.get? (next_len img.data img.len o) = some 0 ∧
        (∀ x ∈ c.take (next_len img.data img.len o), x ≠ 10) ∧
        (o + next_len img.data img.len o = img.len ∨
          img.data (o + next_len img.data img.len o) = 10) := by
  obtain ⟨r, new, hr, htr, hit, _⟩ := script_exec_trace system img st
  refine ⟨r, hr, ?_⟩
  intro o c a rc hmem
  rw [htr, mem_trace_iff] at hmem
  obtain ⟨_, hlt, hc⟩ := iter_trace_mem hit o c a rc hmem
  obtain ⟨_, hle, hno, hcase⟩ := next_len_spec img.data img.len o hlt
  have htake : c.take (next_len img.data img.len o) =
      copy_from_user img.data o (next_len img.data img.len o) := by
    rw [hc, List.take_left' (copy_from_user_length _ _ _)]
  refine ⟨by rw [hc]; simp [copy_from_user_length], ?_, ?_, ?_, ?_⟩
  · rw [htake]
    exact copy_from_user_slice img.data img.len o _ hle
  · rw [hc, List.get?_eq_getElem?,
      List.getElem?_append_right (by rw [copy_from_user_length])]
    simp [copy_from_user_length]
  · intro x hx
    rw [htake] at hx
    obtain ⟨j, hj, rfl⟩ := mem_copy_from_user.mp hx
    exact hno j hj
  · rcases hcase with ⟨_, _, h10⟩ | ⟨_, hend⟩
    · exact Or.inr h10
    · exact Or.inl hend

/-! ## Empty lines -/

theorem next_len_zero (d : Nat → Nat) (n p : Nat) (h : p < n) (h10 : d p = 10) :
    next_len d n p = 0 := by
  obtain ⟨_, _, hno, _⟩ := next_len_spec d n p h
  by_contra hne
  exact hno 0 (Nat.pos_of_ne_zero hne) h10

theorem end_offset_ge (d : Nat → Nat) (n : Nat) :
    ∀ (es : List event) (o : Nat), o ≤ end_offset d n o es := by
  intro es
  induction es with
  | nil => intro o; exact Nat.le_refl _
  | cons e es ih =>
    intro o
    have := ih (o + (next_len d n o + 1))
    show o ≤ end_offset d n (o + (next_len d n o + 1)) es
    omega

/-- An invocation among the events of consecutive iterations starts before the
offset the iterations end at. -/
theorem iter_trace_before_end {d : Nat → Nat} {n : Nat} :
    ∀ {es : List event} {o : Nat}, iter_trace d n o es →
      ∀ q ∈ offsets es, q < end_offset d n o es := by
  intro es
  induction es with
  | nil => intro o _ q hq; simp [offsets] at hq
  | cons e es ih =>
    intro o h q hq
    obtain ⟨⟨a0, rc0, he⟩, hlt, hes⟩ := iter_trace_cons_inv h
    subst he
    simp only [offsets, List.mem_cons] at hq
    show q < end_offset d n (o + (next_len d n o + 1)) es
    rcases hq with hq | hq
    · have := end_offset_ge d n es (o + (next_len d n o + 1))
      omega
    · exact ih hes q hq

/-- Consecutive iterations stop at every line start between the first offset
and the offset they end at. -/
theorem iter_trace_reaches {d : Nat → Nat} {n : Nat} :
    ∀ {es : List event} {o : Nat}, iter_trace d n o es →
      ∀ p, o ≤ p → p < end_offset d n o es → line_start d p →
        ∃ c a rc, event.system p c a rc ∈ es := by
  intro es
  induction es with
  | nil =>
    intro o _ p h1 h2 _
    have : end_offset d n o [] = o := rfl
    omega
  | cons e es ih =>
    intro o h p h1 h2 hp
    obtain ⟨⟨a0, rc0, he⟩, hlt, hes⟩ := iter_trace_cons_inv h
    subst he
    by_cases hpo : p = o
    · subst hpo
      exact ⟨_, a0, rc0, List.mem_cons_self _ _⟩
    · have hprev : d (p - 1) = 10 := by
        rcases hp with hp | hp
        · omega
        · exact hp
      obtain ⟨_, _, hno, _⟩ := next_len_spec d n o hlt
      have hge : o + (next_len d n o + 1) ≤ p := by
        by_contra hcon
        have hj : p - 1 - o < next_len d n o := by omega
        have := hno (p - 1 - o) hj
        rw [show o + (p - 1 - o) = p - 1 by omega] at this
        exact this hprev
      obtain ⟨c, a, rc, hm⟩ := ih hes p hge h2 hp
      exact ⟨c, a, rc, List.mem_cons_of_mem _ hm⟩

/-- Consecutive iterations that start at a line start stop at line starts only. -/
theorem iter_trace_line_start {d : Nat → Nat} {n : Nat} :
    ∀ {es : List event} {o : Nat}, iter_trace d n o es → line_start d o →
      ∀ q ∈ offsets es, line_start d q := by
  intro es
  induction es with
  | nil => intro o _ _ q hq; simp [offsets] at hq
  | cons e es ih =>
    intro o h ho q hq
    obtain ⟨⟨a0, rc0, he⟩, hlt, hes⟩ := iter_trace_cons_inv h
    subst he
    simp only [offsets, List.mem_cons] at hq
    rcases hq with hq | hq
    · rw [hq]; exact ho
    · cases es with
      | nil => simp [offsets] at hq
      | cons e' es' =>
        obtain ⟨_, hlt', _⟩ := iter_trace_cons_inv hes
        obtain ⟨_, _, _, hcase⟩ := next_len_spec d n o hlt
        have hstart : line_start d (o + (next_len d n o + 1)) := by
          rcases hcase with ⟨_, _, h10⟩ | ⟨_, hend⟩
          · right
            rw [show o + (next_len d n o + 1) - 1 = o + next_len d n o by omega]
            exact h10
          · omega
        exact ih hes hstart q hq

/-- C14: every iteration of `script_exec` starts at a line start, and one that
starts on a `'\n'` hands the interpreter the empty string and has a line of
length 0 of its own; each `'\n'` at the start of the buffer or directly after
another `'\n'` that the run reaches (the run returns 0, or an invocation at or
after it was made) has its own invocation, with the empty string; and on the
one-byte buffer `"\n"` there is exactly one invocation, with the empty string. -/
theorem script_exec_empty_lines {σ : Type} (system : interpreter σ) (img : image) (st : σ)
    (reg : registry_state) :
    (∃ r, script_exec system img st = some r ∧
      (∀ o c a rc, event.system o c a rc ∈ r.trace →
        line_start img.data o ∧
          (img.data o = 10 → c = [0] ∧ next_len img.data img.len o = 0)) ∧
      (∀ p, p < img.len → line_start img.data p → img.data p = 10 →
        (r.rc = 0 ∨ ∃ q ∈ offsets r.trace, p ≤ q) →
        ∃ a rc, event.system p [0] a rc ∈ r.trace)) ∧
    (∃ r, script_exec system (image_of [10] reg) st = some r ∧ calls r.trace = [[0]]) := by
  constructor
  · obtain ⟨r, new, hr, htr, hit, hend⟩ := script_exec_trace system img st
    refine ⟨r, hr, ?_, ?_⟩
    · intro o c a rc hmem
      rw [htr, mem_trace_iff] at hmem
      obtain ⟨_, hlt, hc⟩ := iter_trace_mem hit o c a rc hmem
      have ho : o ∈ offsets new := by
        clear hc hit hend htr
        induction new with
        | nil => simp at hmem
        | cons e es ih =>
          rcases List.mem_cons.mp hmem with h | h
          · rw [← h]; simp [offsets]
          · have := ih h
            cases e <;> simp [offsets, this]
      refine ⟨iter_trace_line_start hit (Or.inl rfl) o ho, ?_⟩
      intro h10
      have h0 := next_len_zero img.data img.len o hlt h10
      rw [h0] at hc
      exact ⟨hc, h0⟩
    · intro p hp hstart h10 hreach
      have hbefore : p < end_offset img.data img.len 0 new := by
        rcases hreach with h0 | ⟨q, hq, hpq⟩
        · have := hend h0
          omega
        · rw [htr, offsets_trace] at hq
          have := iter_trace_before_end hit q hq
          omega
      obtain ⟨c, a, rc, hm⟩ := iter_trace_reaches hit p (Nat.zero_le _) hbefore hstart
      obtain ⟨_, hlt, hc⟩ := iter_trace_mem hit p c a rc hm
      rw [next_len_zero img.data img.len p hlt h10] at hc
      refine ⟨a, rc, ?_⟩
      rw [htr, mem_trace_iff]
      have hc0 : c = [0] := hc
      rw [← hc0]
      exact hm
  · refine ⟨_, script_exec_eq system _ st, ?_⟩
    show calls ([event.image_get, event.unregister_image] ++ _ ++
      [event.register_image, event.image_put]) = _
    rw [calls_trace, buffer_image_of]
    have hl : lines_spec [10] = [[]] := by decide
    rw [hl, run_lines_cons]
    split <;> rfl

/-! ## The signature line, round trip, NUL bytes -/

/-- C16: `script_load` accepts the four-byte image `#!gp` (the memory after it
holds `xe\n`), and the first interpreter invocation of `script_exec` on it is
with `#!gp`, not with `#!gpxe`. -/
theorem script_exec_short_image_first_call :
    (script_load 8 short_image).1 = 0 ∧
      (script_load 8 short_image).2.type = some script_image_type ∧
      (script_exec ok_interpreter (script_load 8 short_image).2 ()).map
        (fun r => (calls r.trace).map c_string) = some [bytes "#!gp"] ∧
      bytes "#!gp" ≠ bytes "#!gpxe" := by
  decide

/-- For an image of at least seven bytes whose first seven bytes are the
signature, the first line of the buffer is `#!gpxe`. -/
theorem lines_spec_of_magic (img : image) (h7 : 7 ≤ img.len)
    (hm : copy_from_user img.data 0 7 = magic) :
    lines_spec (buffer img) =
      bytes "#!gpxe" :: lines_spec (copy_from_user img.data 7 (img.len - 7)) := by
  have hb : buffer img = bytes "#!gpxe" ++ 10 :: copy_from_user img.data 7 (img.len - 7) := by
    have h : img.len = 7 + (img.len - 7) := by omega
    unfold buffer
    rw [h, copy_from_user_add, hm]
    simp only [Nat.zero_add, Nat.add_sub_cancel_left]
    rfl
  rw [hb]
  exact lines_spec_line _ _ (by decide)

/-- For an image of at least seven bytes that `script_load` accepts,
`script_exec` starts with the signature line: its first invocation is at
offset 0 with `#!gpxe`, and when that invocation returns a non-zero status it
is the only one. -/
theorem script_exec_first_line {σ : Type} (system : interpreter σ) (img : image) (st : σ)
    (ENOEXEC : Int) (hE : ENOEXEC ≠ 0) (h7 : 7 ≤ img.len)
    (hacc : (script_load ENOEXEC img).1 = 0) :
    ∃ r, script_exec system img st = some r ∧
      (offsets r.trace).head? = some 0 ∧
      (calls r.trace).head? = some (bytes "#!gpxe" ++ [0]) ∧
      ((statuses r.trace).head? ≠ some 0 → calls r.trace = [bytes "#!gpxe" ++ [0]]) := by
  have hm : copy_from_user img.data 0 7 = magic := by
    by_contra hne
    rw [script_load_eq, if_pos hne] at hacc
    exact hE (by simpa using hacc)
  refine ⟨_, script_exec_eq system img st, ?_⟩
  show (offsets ([event.image_get, event.unregister_image] ++ _ ++
      [event.register_image, event.image_put])).head? = _ ∧
    (calls ([event.image_get, event.unregister_image] ++ _ ++
      [event.register_image, event.image_put])).head? = _ ∧
    ((statuses ([event.image_get, event.unregister_image] ++ _ ++
      [event.register_image, event.image_put])).head? ≠ _ →
    calls ([event.image_get, event.unregister_image] ++ _ ++
      [event.register_image, event.image_put]) = _)
  rw [offsets_trace, calls_trace, statuses_append, statuses_append,
    lines_spec_of_magic img h7 hm, run_lines_cons]
  by_cases hrc : (system (bytes "#!gpxe" ++ [0]) ((unregister_image (image_get img)).reg, st)).1
      ≠ 0
  · rw [if_pos hrc]
    simp [offsets, calls, statuses]
  · rw [if_neg hrc]
    have h0 : (system (bytes "#!gpxe" ++ [0]) ((unregister_image (image_get img)).reg, st)).1
        = 0 := by simpa using hrc
    simp [offsets, calls, statuses, h0]

/-- The lemma above at a gPXE script of three lines, with `ENOEXEC` = 8. -/
theorem script_exec_first_line_witness :
    ((8 : Int) ≠ 0 ∧ 7 ≤ gpxe_example.len ∧ (script_load 8 gpxe_example).1 = 0) ∧
    ∃ r, script_exec counting_interpreter gpxe_example 0 = some r ∧
      (offsets r.trace).head? = some 0 ∧
      (calls r.trace).head? = some (bytes "#!gpxe" ++ [0]) ∧
      ((statuses r.trace).head? ≠ some 0 → calls r.trace = [bytes "#!gpxe" ++ [0]]) :=
  ⟨⟨by decide, by decide, by decide⟩,
    script_exec_first_line counting_interpreter gpxe_example 0 8 (by decide) (by decide)
      (by decide)⟩

/-- The string read from a line followed by its NUL is the part of the line
before its first NUL; it holds no NUL. -/
theorem c_string_line (l : List Nat) :
    c_string (l ++ [0]) = l.takeWhile (fun b => b != 0) ∧ 0 ∉ c_string (l ++ [0]) ∧
      (0 ∉ l → c_string (l ++ [0]) = l) ∧
      (0 ∈ l → ∃ rest, l = c_string (l ++ [0]) ++ 0 :: rest) := by
  induction l with
  | nil => simp [c_string]
  | cons x xs ih =>
    obtain ⟨h1, h2, h3, h4⟩ := ih
    by_cases hx : x = 0
    · subst hx
      simp [c_string]
    · have hcs : c_string (x :: xs ++ [0]) = x :: c_string (xs ++ [0]) := by
        simp [c_string, hx]
      have htw : (x :: xs).takeWhile (fun b => b != 0) = x :: xs.takeWhile (fun b => b != 0) := by
        simp [hx]
      rw [hcs, htw, h1]
      refine ⟨rfl, ?_, ?_, ?_⟩
      · rw [← h1]
        intro hmem
        rcases List.mem_cons.mp hmem with h | h
        · exact hx h.symm
        · exact h2 h
      · intro hnot
        rw [← h1, h3 (fun h => hnot (List.mem_cons_of_mem _ h))]
      · intro hin
        have hin' : 0 ∈ xs := by
          rcases List.mem_cons.mp hin with h | h
          · exact absurd h.symm hx
          · exact h
        obtain ⟨rest, hrest⟩ := h4 hin'
        refine ⟨rest, ?_⟩
        rw [← h1]
        simp only [List.cons_append]
        rw [← hrest]

/-- C18: for every line `script_exec` hands to the interpreter: if the line
holds no 0 byte, the string read from the scratch buffer is the line; if it
holds one, the string read is the part of the line before its first 0 byte;
and from one iteration to the next the offset advances by the length of the
whole line plus one. -/
theorem script_exec_c_string {σ : Type} (system : interpreter σ) (img : image) (st : σ) :
    ∃ r, script_exec system img st = some r ∧
      (∀ o c a rc, event.system o c a rc ∈ r.trace →
        (0 ∉ copy_from_user img.data o (next_len img.data img.len o) →
          c_string c = copy_from_user img.data o (next_len img.data img.len o)) ∧
        (0 ∈ copy_from_user img.data o (next_len img.data img.len o) →
          0 ∉ c_string c ∧
          ∃ rest, copy_from_user img.data o (next_len img.data img.len o) =
            c_string c ++ 0 :: rest)) ∧
      List.Chain' (fun a b => b = a + (next_len img.data img.len a + 1)) (offsets r.trace) := by
  obtain ⟨r, new, hr, htr, hit, _⟩ := script_exec_trace system img st
  refine ⟨r, hr, ?_, ?_⟩
  · intro o c a rc hmem
    rw [htr, mem_trace_iff] at hmem
    obtain ⟨_, _, hc⟩ := iter_trace_mem hit o c a rc hmem
    obtain ⟨_, h2, h3, h4⟩ :=
      c_string_line (copy_from_user img.data o (next_len img.data img.len o))
    rw [hc]
    exact ⟨h3, fun hin => ⟨h2, h4 hin⟩⟩
  · rw [htr, offsets_trace]
    exact (iter_trace_chain hit).2

/-- On the example with a NUL byte in its second line, the strings read are
`cmd1`, `ab`, `cmd3`, and the third iteration starts after the whole second
line. -/
theorem script_exec_nul_example :
    (script_exec ok_interpreter nul_example ()).map
      (fun r => ((calls r.trace).map c_string, offsets r.trace)) =
      some ([bytes "cmd1", bytes "ab", bytes "cmd3"], [0, 5, 11]) := by
  decide

/-- A buffer holds no `'\n'`, or it is a first line, a `'\n'`, and a rest. -/
theorem split_first_line (b : List Nat) :
    (∀ x ∈ b, x ≠ 10) ∨ ∃ l r, b = l ++ 10 :: r ∧ ∀ x ∈ l, x ≠ 10 := by
  induction b with
  | nil => left; simp
  | cons x xs ih =>
    by_cases hx : x = 10
    · right
      exact ⟨[], xs, by simp [hx], by simp⟩
    · rcases ih with h | ⟨l, r, hb, hl⟩
      · left
        intro y hy
        rcases List.mem_cons.mp hy with h' | h'
        · rw [h']; exact hx
        · exact h y h'
      · right
        refine ⟨x :: l, r, by simp [hb], ?_⟩
        intro y hy
        rcases List.mem_cons.mp hy with h' | h'
        · rw [h']; exact hx
        · exact hl y h'

theorem intercalate_cons_cons (sep x y : List Nat) (zs : List (List Nat)) :
    sep.intercalate (x :: y :: zs) = x ++ sep ++ sep.intercalate (y :: zs) := by
  simp [List.intercalate]

/-- Joining the lines of a buffer with `'\n'` gives the buffer, without its
final `'\n'` if it ends with one; no line holds a `'\n'`; a non-empty buffer
has a line. -/
theorem lines_spec_join :
    ∀ (n : Nat) (b : List Nat), b.length ≤ n →
      [10].intercalate (lines_spec b) =
          (if b.getLast? = some 10 then b.dropLast else b) ∧
        (∀ l ∈ lines_spec b, 10 ∉ l) ∧
        (b ≠ [] → lines_spec b ≠ []) := by
  intro n
  induction n with
  | zero =>
    intro b hb
    have : b = [] := List.length_eq_zero.mp (by omega)
    subst this
    simp [lines_spec_nil, List.intercalate]
  | succ n ih =>
    intro b hb
    rcases split_first_line b with hfree | ⟨l, r, hbl, hl⟩
    · by_cases hnil : b = []
      · subst hnil
        simp [lines_spec_nil, List.intercalate]
      · rw [lines_spec_last b hfree hnil]
        have hlast : ¬ b.getLast? = some 10 := by
          intro h
          exact hfree 10 (List.mem_of_getLast?_eq_some h) rfl
        rw [if_neg hlast]
        refine ⟨by simp [List.intercalate], ?_, by simp⟩
        intro l' hl'
        rw [List.mem_singleton] at hl'
        subst hl'
        exact fun h => hfree 10 h rfl
    · subst hbl
      have hrlen : r.length ≤ n := by
        simp only [List.length_append, List.length_cons] at hb
        omega
      obtain ⟨h1, h2, h3⟩ := ih r hrlen
      rw [lines_spec_line l r hl]
      refine ⟨?_, ?_, by simp⟩
      · by_cases hr : r = []
        · subst hr
          simp [lines_spec_nil, List.intercalate]
        · have hne := h3 hr
          cases hls : lines_spec r with
          | nil => exact absurd hls hne
          | cons y zs =>
            rw [intercalate_cons_cons, ← hls, h1]
            have hlast : (l ++ 10 :: r).getLast? = r.getLast? := by
              rw [List.getLast?_append_of_ne_nil _ (by simp), List.getLast?_cons]
              cases hgl : r.getLast? with
              | none => exact absurd (List.getLast?_eq_none_iff.mp hgl) hr
              | some z => rfl
            have hdrop : (l ++ 10 :: r).dropLast = l ++ 10 :: r.dropLast := by
              rw [List.dropLast_append_of_ne_nil _ (by simp),
                List.dropLast_cons_of_ne_nil hr]
            rw [hlast, hdrop]
            split <;> simp
      · intro l' hl'
        rcases List.mem_cons.mp hl' with h | h
        · rw [h]
          exact fun h10 => hl 10 h10 rfl
        · exact h2 l' h

/-- C17: with an interpreter that always returns 0, joining the lines
forwarded by `script_exec` (the scratch buffers without their terminating NUL)
with `'\n'` gives the buffer when it does not end with `'\n'` and the buffer
without its final `'\n'` when it does; no forwarded line holds a `'\n'`. -/
theorem script_exec_round_trip {σ : Type} (system : interpreter σ) (img : image) (st : σ)
    (hsys : ∀ c s, (system c s).1 = 0) :
    ∃ r, script_exec system img st = some r ∧
      [10].intercalate ((calls r.trace).map List.dropLast) =
        (if (buffer img).getLast? = some 10 then (buffer img).dropLast else buffer img) ∧
      ∀ l ∈ (calls r.trace).map List.dropLast, 10 ∉ l := by
  refine ⟨_, script_exec_eq system img st, ?_⟩
  have hcalls := (run_lines_all_zero system (lines_spec (buffer img)) 0
    ((unregister_image (image_get img)).reg, st) (fun j _ => hsys _ _)).2
  have hfwd : (calls ([event.image_get, event.unregister_image] ++
      (run_lines system (lines_spec (buffer img)) 0
        ((unregister_image (image_get img)).reg, st)).2.2 ++
      [event.register_image, event.image_put])).map List.dropLast =
      lines_spec (buffer img) := by
    rw [calls_trace, hcalls, List.map_map]
    have hf : (List.dropLast ∘ fun l : List Nat => l ++ [0]) = id := by
      funext l
      simp
    rw [hf, List.map_id]
  obtain ⟨h1, h2, _⟩ := lines_spec_join _ (buffer img) (Nat.le_refl _)
  show [10].intercalate ((calls ([event.image_get, event.unregister_image] ++ _ ++
      [event.register_image, event.image_put])).map List.dropLast) = _ ∧
    ∀ l ∈ (calls ([event.image_get, event.unregister_image] ++ _ ++
      [event.register_image, event.image_put])).map List.dropLast, 10 ∉ l
  rw [hfwd]
  exact ⟨h1, h2⟩

/-- Witness of C17 on a script of three lines that ends with `'\n'`. -/
theorem script_exec_round_trip_witness :
    (∀ c s, (ok_interpreter c s).1 = 0) ∧
    ∃ r, script_exec ok_interpreter gpxe_example () = some r ∧
      [10].intercalate ((calls r.trace).map List.dropLast) =
        (if (buffer gpxe_example).getLast? = some 10 then (buffer gpxe_example).dropLast
          else buffer gpxe_example) ∧
      ∀ l ∈ (calls r.trace).map List.dropLast, 10 ∉ l :=
  ⟨fun _ _ => rfl, script_exec_round_trip ok_interpreter gpxe_example () (fun _ _ => rfl)⟩

/-! ## Nested runs -/

/-- A nested run of `script_exec` leaves the image registered. -/
theorem nested_call_registered {σ : Type} (inner : interpreter σ) (img : image)
    (s : registry_state × σ) :
    (nested_call inner img s).2.1.registered = true := by
  unfold nested_call
  rw [script_exec_eq]
  rfl

theorem after_lines_take_succ {σ : Type} (system : interpreter σ) :
    ∀ (ls : List (List Nat)) (s : registry_state × σ) (i : Nat), i < ls.length →
      after_lines system s (ls.take (i + 1)) =
        (system (ls.getD i [] ++ [0]) (after_lines system s (ls.take i))).2 := by
  intro ls
  induction ls with
  | nil => intro s i hi; simp at hi
  | cons l ls ih =>
    intro s i hi
    cases i with
    | zero => rfl
    | succ i =>
      have := ih (system (l ++ [0]) s).2 i (by simpa using hi)
      simpa [after_lines] using this

/-- When the lines before line `j` return 0, invocation `j` of the reference
run is on line `j`, in the registry state the lines before it have left. -/
theorem run_lines_state_at {σ : Type} (system : interpreter σ) :
    ∀ (ls : List (List Nat)) (o : Nat) (s : registry_state × σ) (j : Nat),
      j < ls.length →
      (∀ k, k < j → status_on system s ls k = 0) →
      (states_at_calls (run_lines system ls o s).2.2).get? j =
          some (after_lines system s (ls.take j)).1 ∧
        (calls (run_lines system ls o s).2.2).get? j = some (ls.getD j [] ++ [0]) := by
  intro ls
  induction ls with
  | nil => intro o s j hj; simp at hj
  | cons l ls ih =>
    intro o s j hj hz
    rw [run_lines_cons]
    cases j with
    | zero =>
      by_cases hrc : (system (l ++ [0]) s).1 ≠ 0
      · rw [if_pos hrc]
        exact ⟨rfl, rfl⟩
      · rw [if_neg hrc]
        exact ⟨rfl, rfl⟩
    | succ j =>
      have h0 : (system (l ++ [0]) s).1 = 0 := by
        have := hz 0 (by omega)
        rwa [status_on_zero] at this
      have hrest : ∀ k, k < j → status_on system (system (l ++ [0]) s).2 ls k = 0 := by
        intro k hk
        have := hz (k + 1) (by omega)
        rwa [status_on_succ] at this
      rw [if_neg (by simp [h0])]
      obtain ⟨h1, h2⟩ := ih (o + (l.length + 1)) (system (l ++ [0]) s).2 j
        (by simpa using hj) hrest
      exact ⟨by simpa [states_at_calls, after_lines] using h1,
        by simpa [calls] using h2⟩

/-- C19: if handling line `i` is a nested run of `script_exec` on the same
image, lines `0..i` return 0 and a line `i + 1` exists, then the invocation for
line `i + 1` of the outer run is made with the image registered. -/
theorem script_exec_nested_run {σ : Type} (system inner : interpreter σ) (img : image)
    (st : σ) (i : Nat)
    (hi : i + 1 < (lines_spec (buffer img)).length)
    (hzero : ∀ j, j < i + 1 →
      status_on system (entry_state img st) (lines_spec (buffer img)) j = 0)
    (hnest : ∀ s, system ((lines_spec (buffer img)).getD i [] ++ [0]) s =
      nested_call inner img s) :
    ∃ r rs, script_exec system img st = some r ∧
      (calls r.trace).get? (i + 1) = some ((lines_spec (buffer img)).getD (i + 1) [] ++ [0]) ∧
      (states_at_calls r.trace).get? (i + 1) = some rs ∧
      rs.registered = true := by
  obtain ⟨h1, h2⟩ := run_lines_state_at system (lines_spec (buffer img)) 0
    (entry_state img st) (i + 1) hi hzero
  refine ⟨_, (after_lines system (entry_state img st)
    ((lines_spec (buffer img)).take (i + 1))).1, script_exec_eq system img st, ?_, ?_, ?_⟩
  · show (calls ([event.image_get, event.unregister_image] ++ _ ++
      [event.register_image, event.image_put])).get? (i + 1) = _
    rw [calls_trace]
    exact h2
  · show (states_at_calls ([event.image_get, event.unregister_image] ++ _ ++
      [event.register_image, event.image_put])).get? (i + 1) = _
    rw [states_at_calls_append, states_at_calls_append]
    simp only [states_at_calls, List.nil_append, List.append_nil]
    exact h1
  · rw [after_lines_take_succ system _ _ i (by omega), hnest]
    exact nested_call_registered inner img _

/-- Witness of C19: the first line of the script runs the script again. -/
theorem script_exec_nested_run_witness :
    (0 + 1 < (lines_spec (buffer reentrant_example)).length ∧
      (∀ j, j < 0 + 1 →
        status_on reentrant_example_interpreter (entry_state reentrant_example ())
          (lines_spec (buffer reentrant_example)) j = 0) ∧
      ∀ s, reentrant_example_interpreter
          ((lines_spec (buffer reentrant_example)).getD 0 [] ++ [0]) s =
        nested_call ok_interpreter reentrant_example s) ∧
    ∃ r rs, script_exec reentrant_example_interpreter reentrant_example () = some r ∧
      (calls r.trace).get? (0 + 1) =
        some ((lines_spec (buffer reentrant_example)).getD (0 + 1) [] ++ [0]) ∧
      (states_at_calls r.trace).get? (0 + 1) = some rs ∧
      rs.registered = true :=
  have hline : (lines_spec (buffer reentrant_example)).getD 0 [] ++ [0] =
      bytes "again" ++ [0] := by decide
  have hnest : ∀ s, reentrant_example_interpreter
      ((lines_spec (buffer reentrant_example)).getD 0 [] ++ [0]) s =
      nested_call ok_interpreter reentrant_example s := by
    intro s
    rw [hline]
    show (if bytes "again" ++ [0] = bytes "again" ++ [0] then
      nested_call ok_interpreter reentrant_example s
      else ok_interpreter (bytes "again" ++ [0]) s) = _
    rw [if_pos rfl]
  ⟨⟨by decide, by decide, hnest⟩,
    script_exec_nested_run reentrant_example_interpreter ok_interpreter reentrant_example ()
      0 (by decide) (by decide) hnest⟩

end Script
